import Mathlib

/-!
# Verification of the keifu commit-graph layout and color engine

Shallow embedding of the commit-graph layout builder (`src/git/graph.rs`),
the lane color assigner (`src/graph/colors.rs`), the navigation queries
(`src/app.rs`) and the pure lane-color lookup used by the renderers
(`src/graph/renderer.rs`, `src/ui/graph_view.rs`), together with proofs of
the specified properties.

Commit and branch identifiers (`git2::Oid`) are modelled as natural numbers;
only equality of identifiers is ever used by the embedded code.
-/

namespace Keifu

/-- Mirrors `CommitInfo` (src/git/commit.rs).  `Oid` is modelled as `ℕ`,
`DateTime<Local>` as an integer timestamp. -/
structure CommitInfo where
  oid : ℕ
  short_id : String
  author_name : String
  author_email : String
  timestamp : ℤ
  message : String
  full_message : String
  parent_oids : List ℕ
deriving DecidableEq

/-- Mirrors `BranchInfo` (src/git/branch.rs). -/
structure BranchInfo where
  name : String
  is_head : Bool
  is_remote : Bool
  upstream : Option String
  tip_oid : ℕ
deriving DecidableEq

/-- Mirrors `ConnectionType` (src/git/graph.rs). -/
inductive ConnectionType where
  | Direct
  | MergeIn
  | BranchOut
deriving DecidableEq

/-- Mirrors `Connection` (src/git/graph.rs). -/
structure Connection where
  target_oid : ℕ
  source_lane : ℕ
  target_lane : ℕ
  connection_type : ConnectionType
deriving DecidableEq

/-- Mirrors `GraphNode` (src/git/graph.rs). -/
structure GraphNode where
  commit : CommitInfo
  lane : ℕ
  row : ℕ
  connections : List Connection
  active_lanes : List Bool
  branch_names : List String
  is_head : Bool
deriving DecidableEq

/-- Mirrors `GraphLayout` (src/git/graph.rs). -/
structure GraphLayout where
  nodes : List GraphNode
  max_lane : ℕ
deriving DecidableEq

/-- `oid_to_row.contains_key(parent_oid)` in `build_graph`: the map is built
from the full commit list, so membership is exactly "some commit has this
oid". -/
def inWindow (commits : List CommitInfo) (oid : ℕ) : Bool :=
  commits.any (fun c => c.oid == oid)

/-- Lane selection for the current commit (`build_graph`, lines 85-110):
reuse the lane already pending for this oid, else prefer lane 0 when free,
else the first free slot, else append a new lane. Returns the chosen lane
and the (possibly extended) `active_lanes` vector. -/
def selectLane (active : List (Option ℕ)) (oid : ℕ) : ℕ × List (Option ℕ) :=
  match active.findIdx? (fun l => l == some oid) with
  | some i => (i, active)
  | none =>
    match active with
    | [] => (0, [none])
    | a0 :: _ =>
      if a0 = none then (0, active)
      else
        match active.findIdx? (fun l => l == none) with
        | some i => (i, active)
        | none => (active.length, active ++ [none])

/-- Free-lane search used for a merge commit's non-first parent
(`build_graph`, lines 143-149): first `None` slot, else append. -/
def findFreeLane (active : List (Option ℕ)) : ℕ × List (Option ℕ) :=
  match active.findIdx? (fun l => l == none) with
  | some i => (i, active)
  | none => (active.length, active ++ [none])

/-- Connection classification (`build_graph`, lines 154-160). -/
def classify (lane target : ℕ) : ConnectionType :=
  if lane = target then ConnectionType.Direct
  else if target > lane then ConnectionType.BranchOut
  else ConnectionType.MergeIn

/-- Accumulator of the per-commit parent loop (`build_graph`, lines 127-171). -/
structure RouteState where
  conns : List Connection
  active : List (Option ℕ)
  maxLane : ℕ
deriving DecidableEq

/-- One iteration of the parent loop of `build_graph` (lines 128-171) for the
indexed parent `ip = (parent_idx, parent_oid)`. -/
def parentStep (window : List CommitInfo) (lane : ℕ) (st : RouteState)
    (ip : ℕ × ℕ) : RouteState :=
  if inWindow window ip.2 then
    let found := st.active.findIdx? (fun l => l == some ip.2)
    let tgt :=
      match found with
      | some pl => (pl, st.active)
      | none =>
        if ip.1 = 0 then (lane, st.active.set lane (some ip.2))
        else
          let free := findFreeLane st.active
          (free.1, free.2.set free.1 (some ip.2))
    let conn : Connection :=
      { target_oid := ip.2
        source_lane := lane
        target_lane := tgt.1
        connection_type := classify lane tgt.1 }
    { conns := st.conns ++ [conn]
      active := tgt.2
      maxLane := max st.maxLane tgt.1 }
  else st

/-- The `active_lanes` snapshot of a row (`build_graph`, lines 112-121):
boolean image of the state, padded with `false` up to the commit's lane,
with the commit's own lane forced active. -/
def rowSnapshot (active : List (Option ℕ)) (lane : ℕ) : List Bool :=
  let snap := active.map (fun l => l.isSome)
  (snap ++ List.replicate (lane + 1 - snap.length) false).set lane true

/-- Branch names attached to a commit: `oid_to_branches` maps each tip oid to
the branch names in input order (lines 60-71, 176-179). -/
def branchNamesFor (branches : List BranchInfo) (oid : ℕ) : List String :=
  (branches.filter (fun b => b.tip_oid == oid)).map (fun b => b.name)

/-- The HEAD oid: last branch with `is_head` set wins (lines 62-71). -/
def headOidOf (branches : List BranchInfo) : Option ℕ :=
  branches.foldl (fun acc b => if b.is_head then some b.tip_oid else acc) none

/-- Processing of one commit row in `build_graph` (lines 85-192). Returns the
produced node, the updated `active_lanes` and the updated `max_lane`. -/
def processCommit (window : List CommitInfo) (headOid : Option ℕ)
    (branches : List BranchInfo) (row : ℕ) (c : CommitInfo)
    (active : List (Option ℕ)) (maxl : ℕ) :
    GraphNode × List (Option ℕ) × ℕ :=
  let sel := selectLane active c.oid
  let lane := sel.1
  let snap := rowSnapshot sel.2 lane
  let cleared := sel.2.set lane none
  let rs := c.parent_oids.enum.foldl (parentStep window lane)
    ⟨[], cleared, maxl⟩
  let node : GraphNode :=
    { commit := c
      lane := lane
      row := row
      connections := rs.conns
      active_lanes := snap
      branch_names := branchNamesFor branches c.oid
      is_head := decide (headOid = some c.oid) }
  (node, rs.active, max rs.maxLane lane)

/-- The main loop of `build_graph` over the commit rows. -/
def buildRows (window : List CommitInfo) (headOid : Option ℕ)
    (branches : List BranchInfo) :
    ℕ → List (Option ℕ) → ℕ → List CommitInfo → List GraphNode × ℕ
  | _, _, maxl, [] => ([], maxl)
  | row, active, maxl, c :: rest =>
    let step := processCommit window headOid branches row c active maxl
    let tail := buildRows window headOid branches (row + 1) step.2.1 step.2.2 rest
    (step.1 :: tail.1, tail.2)

/-- Mirrors `build_graph` (src/git/graph.rs, lines 52-195). -/
def build_graph (commits : List CommitInfo) (branches : List BranchInfo) :
    GraphLayout :=
  if commits.isEmpty then { nodes := [], max_lane := 0 }
  else
    let res := buildRows commits (headOidOf branches) branches 0 [] 0 commits
    { nodes := res.1, max_lane := res.2 }

/-- A commit value with only the fields relevant to layout; used in tests. -/
def mkCommit (oid : ℕ) (parents : List ℕ) : CommitInfo :=
  { oid := oid
    short_id := ""
    author_name := ""
    author_email := ""
    timestamp := 0
    message := ""
    full_message := ""
    parent_oids := parents }

/-- The classification predicate of claim C1, for one connection. -/
def WellClassified (conn : Connection) : Prop :=
  (conn.connection_type = ConnectionType.Direct ↔
      conn.source_lane = conn.target_lane) ∧
  (conn.connection_type = ConnectionType.BranchOut ↔
      conn.target_lane > conn.source_lane) ∧
  (conn.connection_type = ConnectionType.MergeIn ↔
      conn.target_lane < conn.source_lane)

lemma classify_wellClassified (oid lane target : ℕ) :
    WellClassified ⟨oid, lane, target, classify lane target⟩ := by
  unfold WellClassified classify
  rcases lt_trichotomy lane target with h | h | h <;>
    simp [h, Nat.ne_of_lt, Nat.ne_of_gt, not_lt_of_gt, Nat.lt_irrefl]

/-- Every connection present after a `parentStep` was already there or is a
freshly classified connection to an in-window parent. -/
lemma parentStep_conns_mem (w : List CommitInfo) (lane : ℕ) (st : RouteState)
    (ip : ℕ × ℕ) (conn : Connection)
    (h : conn ∈ (parentStep w lane st ip).conns) :
    conn ∈ st.conns ∨
      (inWindow w ip.2 = true ∧
        ∃ t, conn = ⟨ip.2, lane, t, classify lane t⟩) := by
  unfold parentStep at h
  by_cases hw : inWindow w ip.2
  · simp only [hw, if_true] at h
    rcases List.mem_append.mp h with h' | h'
    · exact Or.inl h'
    · right
      refine ⟨hw, ?_⟩
      simp only [List.mem_singleton] at h'
      exact ⟨_, h'⟩
  · simp only [hw] at h
    simp at h
    exact Or.inl h

/-- Lift `parentStep_conns_mem` through the parent fold. -/
lemma foldl_parentStep_conns_mem (w : List CommitInfo) (lane : ℕ)
    (ips : List (ℕ × ℕ)) (st : RouteState) (conn : Connection)
    (h : conn ∈ (ips.foldl (parentStep w lane) st).conns) :
    conn ∈ st.conns ∨
      (∃ ip ∈ ips, inWindow w ip.2 = true ∧
        ∃ t, conn = ⟨ip.2, lane, t, classify lane t⟩) := by
  induction ips generalizing st with
  | nil => exact Or.inl h
  | cons ip rest ih =>
    rcases ih (parentStep w lane st ip) h with h' | h'
    · rcases parentStep_conns_mem w lane st ip conn h' with h'' | h''
      · exact Or.inl h''
      · exact Or.inr ⟨ip, List.mem_cons_self _ _, h''⟩
    · rcases h' with ⟨ip', hmem, hrest⟩
      exact Or.inr ⟨ip', List.mem_cons_of_mem _ hmem, hrest⟩

/-- All connections of the node produced by one row step are classified and
point at in-window parents of that commit. -/
lemma processCommit_conns (w : List CommitInfo) (hO : Option ℕ)
    (br : List BranchInfo) (row : ℕ) (c : CommitInfo)
    (active : List (Option ℕ)) (maxl : ℕ) (conn : Connection)
    (h : conn ∈ (processCommit w hO br row c active maxl).1.connections) :
    WellClassified conn ∧ inWindow w conn.target_oid = true ∧
      conn.target_oid ∈ c.parent_oids := by
  unfold processCommit at h
  simp only at h
  rcases foldl_parentStep_conns_mem _ _ _ _ _ h with h' | h'
  · simp at h'
  · rcases h' with ⟨ip, hmem, hw, t, rfl⟩
    refine ⟨classify_wellClassified _ _ _, hw, ?_⟩
    exact List.getElem?_mem (List.mem_enum_iff_getElem?.mp hmem)

/-- All nodes produced by `buildRows` satisfy any predicate that holds of
every `processCommit` output node. -/
lemma buildRows_nodes_forall (w : List CommitInfo) (hO : Option ℕ)
    (br : List BranchInfo) (Q : GraphNode → Prop)
    (h : ∀ row c active maxl, Q (processCommit w hO br row c active maxl).1) :
    ∀ cs row active maxl,
      ∀ node ∈ (buildRows w hO br row active maxl cs).1, Q node := by
  intro cs
  induction cs with
  | nil => intro row active maxl node hn; simp [buildRows] at hn
  | cons c rest ih =>
    intro row active maxl node hn
    simp only [buildRows, List.mem_cons] at hn
    rcases hn with rfl | hn
    · exact h row c active maxl
    · exact ih _ _ _ node hn

/-- C1. In every layout produced by `build_graph`, every connection of every
node is classified `Direct` iff its source and target lanes are equal,
`BranchOut` iff the target lane is strictly greater, and `MergeIn` iff the
target lane is strictly smaller. -/
theorem connection_classification_correct (commits : List CommitInfo)
    (branches : List BranchInfo) (node : GraphNode) (conn : Connection)
    (hn : node ∈ (build_graph commits branches).nodes)
    (hc : conn ∈ node.connections) :
    (conn.connection_type = ConnectionType.Direct ↔
        conn.source_lane = conn.target_lane) ∧
    (conn.connection_type = ConnectionType.BranchOut ↔
        conn.target_lane > conn.source_lane) ∧
    (conn.connection_type = ConnectionType.MergeIn ↔
        conn.target_lane < conn.source_lane) := by
  unfold build_graph at hn
  by_cases he : commits.isEmpty
  · simp [he] at hn
  · simp only [he, if_false] at hn
    have := buildRows_nodes_forall commits (headOidOf branches) branches
      (fun node => ∀ conn ∈ node.connections, WellClassified conn)
      (fun row c active maxl conn hc =>
        (processCommit_conns _ _ _ _ _ _ _ _ hc).1)
      commits 0 [] 0 node hn
    exact this conn hc

theorem connection_classification_correct_witness :
    ((⟨2, 0, 0, ConnectionType.Direct⟩ : Connection).connection_type =
        ConnectionType.Direct ↔ (0 : ℕ) = 0) ∧
    ((⟨2, 0, 0, ConnectionType.Direct⟩ : Connection).connection_type =
        ConnectionType.BranchOut ↔ (0 : ℕ) > 0) ∧
    ((⟨2, 0, 0, ConnectionType.Direct⟩ : Connection).connection_type =
        ConnectionType.MergeIn ↔ (0 : ℕ) < 0) :=
  connection_classification_correct [mkCommit 1 [2], mkCommit 2 []] []
    { commit := mkCommit 1 [2], lane := 0, row := 0
      connections := [⟨2, 0, 0, ConnectionType.Direct⟩]
      active_lanes := [true], branch_names := [], is_head := false }
    ⟨2, 0, 0, ConnectionType.Direct⟩ (by decide) (by decide)

lemma rowSnapshot_length_ge (active : List (Option ℕ)) (lane : ℕ) :
    lane + 1 ≤ (rowSnapshot active lane).length := by
  unfold rowSnapshot
  simp only [List.length_set, List.length_append, List.length_replicate,
    List.length_map]
  omega

/-- C4 counterexample: in the layout of a two-parent (merge) tip commit over
a three-commit window, the first node's `active_lanes` vector has length 1
while `max_lane` is 1, so the claimed bound `length ≥ max_lane + 1` fails. -/
theorem active_lanes_length_counterexample :
    ¬ (∀ node ∈ (build_graph
        [mkCommit 1 [2, 3], mkCommit 2 [3], mkCommit 3 []] []).nodes,
      (build_graph [mkCommit 1 [2, 3], mkCommit 2 [3], mkCommit 3 []]
          []).max_lane + 1 ≤ node.active_lanes.length) := by
  decide

/-- C4 amended: in every layout produced by `build_graph`, every node's
`active_lanes` boolean vector has length at least `node.lane + 1` (the
node's own lane is always covered); the original bound `max_lane + 1` does
not hold (see the counterexample). -/
theorem active_lanes_length_ge_lane (commits : List CommitInfo)
    (branches : List BranchInfo) (node : GraphNode)
    (hn : node ∈ (build_graph commits branches).nodes) :
    node.lane + 1 ≤ node.active_lanes.length := by
  unfold build_graph at hn
  by_cases he : commits.isEmpty
  · simp [he] at hn
  · simp only [he, if_false] at hn
    exact buildRows_nodes_forall commits (headOidOf branches) branches
      (fun node => node.lane + 1 ≤ node.active_lanes.length)
      (fun row c active maxl => by
        unfold processCommit
        exact rowSnapshot_length_ge _ _)
      commits 0 [] 0 node hn

theorem active_lanes_length_ge_lane_witness :
    ({ commit := mkCommit 1 [], lane := 0, row := 0, connections := []
       active_lanes := [true], branch_names := [], is_head := false } :
        GraphNode).lane + 1 ≤
    ({ commit := mkCommit 1 [], lane := 0, row := 0, connections := []
       active_lanes := [true], branch_names := [], is_head := false } :
        GraphNode).active_lanes.length :=
  active_lanes_length_ge_lane [mkCommit 1 []] []
    { commit := mkCommit 1 [], lane := 0, row := 0, connections := []
      active_lanes := [true], branch_names := [], is_head := false }
    (by decide)

/-- A parent outside the commit window changes nothing: no connection is
recorded, no lane is touched (`build_graph`, line 129 guard). -/
lemma parentStep_out_of_window (w : List CommitInfo) (lane : ℕ)
    (st : RouteState) (ip : ℕ × ℕ) (h : inWindow w ip.2 = false) :
    parentStep w lane st ip = st := by
  unfold parentStep
  simp [h]

lemma processCommit_no_resolvable (w : List CommitInfo) (hO : Option ℕ)
    (br : List BranchInfo) (row : ℕ) (c : CommitInfo)
    (active : List (Option ℕ)) (maxl : ℕ)
    (h : ∀ p ∈ c.parent_oids, inWindow w p = false) :
    (processCommit w hO br row c active maxl).1.connections = [] := by
  unfold processCommit
  simp only
  refine List.eq_nil_iff_forall_not_mem.mpr (fun conn hc => ?_)
  rcases foldl_parentStep_conns_mem _ _ _ _ _ hc with h' | h'
  · simp at h'
  · rcases h' with ⟨ip, hmem, hw, _, _⟩
    have : ip.2 ∈ c.parent_oids :=
      List.getElem?_mem (List.mem_enum_iff_getElem?.mp hmem)
    rw [h ip.2 this] at hw
    exact Bool.false_ne_true hw

/-- C6. Dangling parents are silently dropped: every connection of every node
targets the oid of some commit of the input list; a commit none of whose
parents resolve in the window gets an empty connection list; and a
`parentStep` on an out-of-window parent is the identity (no connection, no
lane allocated).  `build_graph` is a total function, so the build cannot fail
on such input. -/
theorem dangling_parents_dropped :
    (∀ (commits : List CommitInfo) (branches : List BranchInfo)
        (node : GraphNode), node ∈ (build_graph commits branches).nodes →
      (∀ conn ∈ node.connections,
          ∃ c ∈ commits, c.oid = conn.target_oid) ∧
      ((∀ p ∈ node.commit.parent_oids, inWindow commits p = false) →
          node.connections = [])) ∧
    (∀ (commits : List CommitInfo) (lane : ℕ) (st : RouteState)
        (ip : ℕ × ℕ), inWindow commits ip.2 = false →
      parentStep commits lane st ip = st) := by
  constructor
  · intro commits branches node hn
    unfold build_graph at hn
    by_cases he : commits.isEmpty
    · simp [he] at hn
    · simp only [he, if_false] at hn
      have := buildRows_nodes_forall commits (headOidOf branches) branches
        (fun node =>
          (∀ conn ∈ node.connections,
              ∃ c ∈ commits, c.oid = conn.target_oid) ∧
          ((∀ p ∈ node.commit.parent_oids, inWindow commits p = false) →
              node.connections = []))
        (fun row c active maxl => by
          constructor
          · intro conn hc
            have hw := (processCommit_conns _ _ _ _ _ _ _ _ hc).2.1
            unfold inWindow at hw
            rcases List.any_eq_true.mp hw with ⟨c', hc', hoid⟩
            exact ⟨c', hc', beq_iff_eq.mp hoid⟩
          · intro hall
            exact processCommit_no_resolvable _ _ _ _ _ _ _ hall)
        commits 0 [] 0 node hn
      exact this
  · intro commits lane st ip h
    exact parentStep_out_of_window _ _ _ _ h

theorem dangling_parents_dropped_witness :
    (∃ c ∈ [mkCommit 1 [5, 2], mkCommit 2 []], c.oid = 2) ∧
    ({ commit := mkCommit 2 [], lane := 0, row := 1, connections := []
       active_lanes := [true], branch_names := [], is_head := false } :
        GraphNode).connections = [] :=
  ⟨(dangling_parents_dropped.1 [mkCommit 1 [5, 2], mkCommit 2 []] []
      { commit := mkCommit 1 [5, 2], lane := 0, row := 0
        connections := [⟨2, 0, 0, ConnectionType.Direct⟩]
        active_lanes := [true], branch_names := [], is_head := false }
      (by decide)).1 ⟨2, 0, 0, ConnectionType.Direct⟩ (by decide),
   (dangling_parents_dropped.1 [mkCommit 1 [5, 2], mkCommit 2 []] []
      { commit := mkCommit 2 [], lane := 0, row := 1, connections := []
        active_lanes := [true], branch_names := [], is_head := false }
      (by decide)).2 (by decide)⟩

/-- The linear-history shape of claim C2: each commit's parent list is
exactly the single oid of the next commit, and the last commit has no
parents. -/
def isLinearChain : List CommitInfo → Bool
  | [] => true
  | [c] => c.parent_oids.isEmpty
  | c :: d :: rest =>
    decide (c.parent_oids = [d.oid]) && isLinearChain (d :: rest)

lemma inWindow_of_mem {commits : List CommitInfo} {x : CommitInfo}
    (h : x ∈ commits) : inWindow commits x.oid = true :=
  List.any_eq_true.mpr ⟨x, h, beq_self_eq_true _⟩

lemma selectLane_empty (oid : ℕ) : selectLane [] oid = (0, [none]) := by
  simp [selectLane]

lemma selectLane_self (oid : ℕ) :
    selectLane [some oid] oid = (0, [some oid]) := by
  simp [selectLane, List.findIdx?_cons]

lemma processCommit_root (w : List CommitInfo) (hO : Option ℕ)
    (br : List BranchInfo) (row : ℕ) (c : CommitInfo)
    (active : List (Option ℕ)) (h : c.parent_oids = [])
    (ha : active = [] ∨ active = [some c.oid]) :
    (processCommit w hO br row c active 0).1.lane = 0 ∧
    (processCommit w hO br row c active 0).2.2 = 0 := by
  rcases ha with rfl | rfl <;>
    simp [processCommit, selectLane_empty, selectLane_self, h]

lemma processCommit_single_parent (w : List CommitInfo) (hO : Option ℕ)
    (br : List BranchInfo) (row : ℕ) (c : CommitInfo)
    (active : List (Option ℕ)) (p : ℕ) (h : c.parent_oids = [p])
    (hw : inWindow w p = true)
    (ha : active = [] ∨ active = [some c.oid]) :
    (processCommit w hO br row c active 0).1.lane = 0 ∧
    (processCommit w hO br row c active 0).2.1 = [some p] ∧
    (processCommit w hO br row c active 0).2.2 = 0 := by
  rcases ha with rfl | rfl <;>
    simp [processCommit, selectLane_empty, selectLane_self, h,
      parentStep, hw, List.enum, classify]

lemma buildRows_linear (w : List CommitInfo) (hO : Option ℕ)
    (br : List BranchInfo) :
    ∀ (cs : List CommitInfo) (row : ℕ) (active : List (Option ℕ)),
      isLinearChain cs = true →
      (∀ x ∈ cs, inWindow w x.oid = true) →
      (active = [] ∨ ∃ d rest, cs = d :: rest ∧ active = [some d.oid]) →
      (buildRows w hO br row active 0 cs).2 = 0 ∧
        ∀ node ∈ (buildRows w hO br row active 0 cs).1, node.lane = 0 := by
  intro cs
  induction cs with
  | nil => intro row active _ _ _; simp [buildRows]
  | cons c rest ih =>
    intro row active hlin hwin hact
    have ha : active = [] ∨ active = [some c.oid] := by
      rcases hact with h | ⟨d, rest', heq, h⟩
      · exact Or.inl h
      · cases heq; exact Or.inr h
    cases rest with
    | nil =>
      have hp : c.parent_oids = [] := by
        simpa [isLinearChain, List.isEmpty_iff] using hlin
      obtain ⟨hlane, hmax⟩ := processCommit_root w hO br row c active hp ha
      simp only [buildRows]
      constructor
      · simpa [buildRows] using hmax
      · intro node hn
        simp only [List.mem_cons] at hn
        rcases hn with rfl | hn
        · exact hlane
        · simp [buildRows] at hn
    | cons d rest' =>
      have hlin' : isLinearChain (d :: rest') = true := by
        simp only [isLinearChain, Bool.and_eq_true] at hlin
        exact hlin.2
      have hp : c.parent_oids = [d.oid] := by
        simp only [isLinearChain, Bool.and_eq_true, decide_eq_true_eq] at hlin
        exact hlin.1
      have hwd : inWindow w d.oid = true :=
        hwin d (List.mem_cons_of_mem _ (List.mem_cons_self _ _))
      obtain ⟨hlane, hactive, hmax⟩ :=
        processCommit_single_parent w hO br row c active d.oid hp hwd ha
      have ihres := ih (row + 1) [some d.oid]
        hlin' (fun x hx => hwin x (List.mem_cons_of_mem _ hx))
        (Or.inr ⟨d, rest', rfl, rfl⟩)
      simp only [buildRows] at ihres ⊢
      rw [hactive, hmax]
      refine ⟨ihres.1, fun node hn => ?_⟩
      rcases List.mem_cons.mp hn with rfl | hn
      · exact hlane
      · exact ihres.2 node hn

/-- C2. A non-empty linear commit list (each commit's parents are exactly the
single oid of the next commit, the last commit is a root) yields a layout
with `max_lane = 0` and every node in lane 0. -/
theorem linear_history_single_lane (commits : List CommitInfo)
    (branches : List BranchInfo) (hne : commits ≠ [])
    (hnodup : (commits.map (fun c => c.oid)).Nodup)
    (hlin : isLinearChain commits = true) :
    (build_graph commits branches).max_lane = 0 ∧
      ∀ node ∈ (build_graph commits branches).nodes, node.lane = 0 := by
  unfold build_graph
  have he : commits.isEmpty = false := by
    cases commits with
    | nil => exact absurd rfl hne
    | cons c rest => rfl
  simp only [he, Bool.false_eq_true, if_false]
  exact buildRows_linear commits (headOidOf branches) branches commits 0 []
    hlin (fun x hx => inWindow_of_mem hx) (Or.inl rfl)

theorem linear_history_single_lane_witness :
    (build_graph [mkCommit 1 [2], mkCommit 2 [3], mkCommit 3 []]
        []).max_lane = 0 ∧
      ∀ node ∈ (build_graph [mkCommit 1 [2], mkCommit 2 [3], mkCommit 3 []]
          []).nodes, node.lane = 0 :=
  linear_history_single_lane [mkCommit 1 [2], mkCommit 2 [3], mkCommit 3 []]
    [] (by decide) (by decide) (by decide)

/-- Modelled from the spec's words (tie-break policy): `r` is the
lowest-indexed free lane of `active` — the first `None` slot, or a new lane
appended at the end when no slot is free. -/
def IsLowestFree (active : List (Option ℕ)) (r : ℕ) : Prop :=
  (active[r]? = some none ∨ (r = active.length ∧ none ∉ active)) ∧
  ∀ k < r, active[k]? ≠ some none

lemma findIdx?_eq_some_of_getElem? {α} (p : α → Bool) (l : List α) (i : ℕ)
    (x : α) (hx : l[i]? = some x) (hp : p x = true)
    (hmin : ∀ j y, j < i → l[j]? = some y → p y = false) :
    l.findIdx? p = some i := by
  obtain ⟨hi, hxi⟩ := List.getElem?_eq_some.mp hx
  rw [List.findIdx?_eq_some_iff_findIdx_eq]
  refine ⟨hi, ?_⟩
  have h1 : ¬ i < l.findIdx p := by
    intro hlt
    have := List.not_of_lt_findIdx hlt
    rw [hxi, hp] at this
    simp at this
  have h2 : ¬ l.findIdx p < i := by
    intro hlt
    have hflt : l.findIdx p < l.length := lt_trans hlt hi
    have hptrue : p (l.get ⟨l.findIdx p, hflt⟩) = true :=
      @List.findIdx_getElem _ _ _ hflt
    have := hmin (l.findIdx p) (l.get ⟨l.findIdx p, hflt⟩) hlt
      (by rw [List.getElem?_eq_getElem hflt]; rfl)
    rw [hptrue] at this
    simp at this
  omega

lemma free_none_characterization (active : List (Option ℕ))
    (hf : active.findIdx? (fun l => l == none) = none) :
    IsLowestFree active active.length := by
  have hall := List.findIdx?_eq_none_iff.mp hf
  refine ⟨Or.inr ⟨rfl, fun hmem => ?_⟩, fun k hk hsome => ?_⟩
  · have := hall none hmem
    simp at this
  · have hk' : k < active.length := by
      rcases List.getElem?_eq_some.mp hsome with ⟨h, _⟩
      exact h
    have := hall (active.get ⟨k, hk'⟩) (active.get_mem _ _)
    rcases List.getElem?_eq_some.mp hsome with ⟨h, hget⟩
    have hkn : active.get ⟨k, hk'⟩ = none := hget
    rw [hkn] at this
    simp at this

lemma free_some_characterization (active : List (Option ℕ)) (i : ℕ)
    (hf : active.findIdx? (fun l => l == none) = some i) :
    IsLowestFree active i := by
  obtain ⟨hi, hfi⟩ := List.findIdx?_eq_some_iff_findIdx_eq.mp hf
  subst hfi
  constructor
  · left
    have hp := @List.findIdx_getElem _ (fun l => l == none) active hi
    simp only [beq_iff_eq] at hp
    rw [List.getElem?_eq_getElem hi]
    exact congrArg some hp
  · intro k hk hsome
    have := List.not_of_lt_findIdx hk
    rcases List.getElem?_eq_some.mp hsome with ⟨h, hget⟩
    rw [hget] at this
    simp at this

/-- C3. Lane selection policy: a commit whose oid is pending in some lane is
assigned the (first) lane holding it; otherwise it gets the lowest-indexed
free lane (first `None` slot, else a lane appended at the end); and the
free-lane search used for a merge commit's non-first parent
(`findFreeLane`) follows the same lowest-free-index policy. -/
theorem lane_allocation_lowest_free :
    (∀ (active : List (Option ℕ)) (oid i : ℕ),
        active[i]? = some (some oid) →
        (∀ j < i, active[j]? ≠ some (some oid)) →
        (selectLane active oid).1 = i) ∧
    (∀ (active : List (Option ℕ)) (oid : ℕ), some oid ∉ active →
        IsLowestFree active (selectLane active oid).1) ∧
    (∀ active : List (Option ℕ), IsLowestFree active (findFreeLane active).1) := by
  refine ⟨?_, ?_, ?_⟩
  · intro active oid i hx hmin
    have hf : active.findIdx? (fun l => l == some oid) = some i := by
      refine findIdx?_eq_some_of_getElem? _ _ _ _ hx (beq_self_eq_true _) ?_
      intro j y hj hy
      by_cases hyy : y = some oid
      · exact absurd (hyy ▸ hy) (hmin j hj)
      · simp [hyy]
    unfold selectLane
    rw [hf]
  · intro active oid hmem
    have hf : active.findIdx? (fun l => l == some oid) = none := by
      rw [List.findIdx?_eq_none_iff]
      intro x hx
      rw [beq_eq_false_iff_ne]
      exact fun hxx => hmem (hxx ▸ hx)
    cases active with
    | nil =>
      rw [selectLane_empty]
      refine ⟨Or.inr ⟨rfl, List.not_mem_nil _⟩, fun k hk hsome => ?_⟩
      rw [List.getElem?_eq_none (Nat.zero_le k)] at hsome
      exact Option.noConfusion hsome
    | cons a0 rest =>
      cases a0 with
      | none =>
        have heq : selectLane (none :: rest) oid = (0, none :: rest) := by
          unfold selectLane
          rw [hf]
          rfl
        rw [heq]
        show IsLowestFree (none :: rest) 0
        exact ⟨Or.inl List.getElem?_cons_zero, fun k hk hsome => by omega⟩
      | some v =>
        have heq : selectLane (some v :: rest) oid =
            (match (some v :: rest).findIdx? (fun l => l == none) with
              | some i => (i, some v :: rest)
              | none => ((some v :: rest).length,
                  (some v :: rest) ++ [none])) := by
          unfold selectLane
          rw [hf]
          rfl
        rw [heq]
        cases hf2 : (some v :: rest).findIdx? (fun l => l == none) with
        | some i =>
          show IsLowestFree (some v :: rest) i
          exact free_some_characterization _ _ hf2
        | none =>
          show IsLowestFree (some v :: rest) (some v :: rest).length
          exact free_none_characterization _ hf2
  · intro active
    unfold findFreeLane
    cases hf : active.findIdx? (fun l => l == none) with
    | some i => exact free_some_characterization _ _ hf
    | none => exact free_none_characterization _ hf

theorem lane_allocation_lowest_free_witness :
    (selectLane [none, some 5] 5).1 = 1 ∧
    IsLowestFree [some 9, none] (selectLane [some 9, none] 5).1 ∧
    IsLowestFree [some 9, none] (findFreeLane [some 9, none]).1 :=
  ⟨lane_allocation_lowest_free.1 [none, some 5] 5 1 (by decide)
      (by decide),
   lane_allocation_lowest_free.2.1 [some 9, none] 5 (by decide),
   lane_allocation_lowest_free.2.2 [some 9, none]⟩

/-- The pending parent oids currently held by the active-lane state. -/
def pendingOids (active : List (Option ℕ)) : List ℕ :=
  active.filterMap id

lemma filterMap_set_none_sublist (l : List (Option ℕ)) (i : ℕ) :
    List.Sublist ((l.set i none).filterMap id) (l.filterMap id) := by
  induction l generalizing i with
  | nil => simp
  | cons a t ih =>
    cases i with
    | zero =>
      cases a with
      | none => simp
      | some q =>
        simp only [List.set, List.filterMap_cons]
        simp only [id, List.filterMap_cons] at *
        exact List.sublist_cons_self q (t.filterMap id)
    | succ n =>
      cases a with
      | none =>
        simp only [List.set, List.filterMap_cons]
        simpa using ih n
      | some q =>
        simp only [List.set, List.filterMap_cons]
        simpa using List.Sublist.cons₂ q (ih n)

lemma mem_filterMap_set_some (l : List (Option ℕ)) (i : ℕ) (p x : ℕ)
    (hx : x ∈ (l.set i (some p)).filterMap id) :
    x = p ∨ x ∈ l.filterMap id := by
  induction l generalizing i with
  | nil => simp at hx
  | cons a t ih =>
    cases i with
    | zero =>
      simp only [List.set] at hx
      simp only [id, List.filterMap_cons] at hx ⊢
      rcases List.mem_cons.mp hx with rfl | hx
      · exact Or.inl rfl
      · cases a with
        | none => exact Or.inr hx
        | some q => exact Or.inr (List.mem_cons_of_mem _ hx)
    | succ n =>
      simp only [List.set] at hx
      cases a with
      | none =>
        simp only [id, List.filterMap_cons] at hx ⊢
        exact ih n hx
      | some q =>
        simp only [id, List.filterMap_cons] at hx ⊢
        rcases List.mem_cons.mp hx with rfl | hx
        · exact Or.inr (List.mem_cons_self _ _)
        · rcases ih n hx with h | h
          · exact Or.inl h
          · exact Or.inr (List.mem_cons_of_mem _ h)

lemma nodup_filterMap_set_some (l : List (Option ℕ)) (i : ℕ) (p : ℕ)
    (hp : p ∉ l.filterMap id) (hd : (l.filterMap id).Nodup) :
    ((l.set i (some p)).filterMap id).Nodup := by
  induction l generalizing i with
  | nil => simp
  | cons a t ih =>
    cases i with
    | zero =>
      simp only [List.set]
      simp only [id, List.filterMap_cons] at hp hd ⊢
      cases a with
      | none =>
        exact List.Nodup.cons (fun h => hp h) hd
      | some q =>
        exact List.Nodup.cons (fun h => hp (List.mem_cons_of_mem _ h))
          (List.Nodup.of_cons hd)
    | succ n =>
      simp only [List.set]
      cases a with
      | none =>
        simp only [id, List.filterMap_cons] at hp hd ⊢
        exact ih n hp hd
      | some q =>
        simp only [id, List.filterMap_cons] at hp hd ⊢
        refine List.Nodup.cons (fun h => ?_) (ih n
          (fun h => hp (List.mem_cons_of_mem _ h))
          (List.Nodup.of_cons hd))
        rcases mem_filterMap_set_some t n p q h with rfl | h
        · exact hp (List.mem_cons_self _ _)
        · exact (List.nodup_cons.mp hd).1 h

lemma not_pending_of_findIdx?_none (active : List (Option ℕ)) (p : ℕ)
    (hf : active.findIdx? (fun l => l == some p) = none) :
    p ∉ active.filterMap id := by
  intro hp
  rcases List.mem_filterMap.mp hp with ⟨a, ha, haeq⟩
  have := List.findIdx?_eq_none_iff.mp hf a ha
  rw [show a = some p from haeq] at this
  simp at this

lemma selectLane_pending_eq (active : List (Option ℕ)) (oid : ℕ) :
    ((selectLane active oid).2).filterMap id = active.filterMap id := by
  unfold selectLane
  cases hf : active.findIdx? (fun l => l == some oid) with
  | some i => rfl
  | none =>
    cases active with
    | nil => rfl
    | cons a0 rest =>
      cases a0 with
      | none => rfl
      | some v =>
        cases hf2 : (some v :: rest).findIdx? (fun l => l == none) with
        | some i => rfl
        | none => simp

lemma findFreeLane_pending_eq (active : List (Option ℕ)) :
    ((findFreeLane active).2).filterMap id = active.filterMap id := by
  unfold findFreeLane
  cases hf : active.findIdx? (fun l => l == none) with
  | some i => rfl
  | none => simp

lemma parentStep_pending_nodup (w : List CommitInfo) (lane : ℕ)
    (st : RouteState) (ip : ℕ × ℕ)
    (hd : ((st.active).filterMap id).Nodup) :
    (((parentStep w lane st ip).active).filterMap id).Nodup := by
  unfold parentStep
  by_cases hw : inWindow w ip.2
  · simp only [hw, if_true]
    cases hf : st.active.findIdx? (fun l => l == some ip.2) with
    | some pl => exact hd
    | none =>
      have hp := not_pending_of_findIdx?_none st.active ip.2 hf
      by_cases h0 : ip.1 = 0
      · simp only [h0, if_true]
        exact nodup_filterMap_set_some _ _ _ hp hd
      · simp only [h0, if_false]
        have he := findFreeLane_pending_eq st.active
        refine nodup_filterMap_set_some _ _ _ ?_ ?_
        · rw [he]; exact hp
        · rw [he]; exact hd
  · simp only [hw, if_false]
    exact hd

lemma foldl_parentStep_pending_nodup (w : List CommitInfo) (lane : ℕ)
    (ips : List (ℕ × ℕ)) (st : RouteState)
    (hd : ((st.active).filterMap id).Nodup) :
    (((ips.foldl (parentStep w lane) st).active).filterMap id).Nodup := by
  induction ips generalizing st with
  | nil => exact hd
  | cons ip rest ih =>
    exact ih (parentStep w lane st ip) (parentStep_pending_nodup w lane st ip hd)

lemma processCommit_pending_nodup (w : List CommitInfo) (hO : Option ℕ)
    (br : List BranchInfo) (row : ℕ) (c : CommitInfo)
    (active : List (Option ℕ)) (maxl : ℕ)
    (hd : (active.filterMap id).Nodup) :
    (((processCommit w hO br row c active maxl).2.1).filterMap id).Nodup := by
  unfold processCommit
  refine foldl_parentStep_pending_nodup _ _ _ _ ?_
  refine List.Nodup.sublist (filterMap_set_none_sublist _ _) ?_
  rw [selectLane_pending_eq]
  exact hd

/-- The successive active-lane states entered by the rows of a
`build_graph` run (the state before row 0, before row 1, ..., and the final
state). -/
def buildTrace (w : List CommitInfo) (hO : Option ℕ) (br : List BranchInfo) :
    ℕ → List (Option ℕ) → ℕ → List CommitInfo → List (List (Option ℕ))
  | _, active, _, [] => [active]
  | row, active, maxl, c :: rest =>
    let step := processCommit w hO br row c active maxl
    active :: buildTrace w hO br (row + 1) step.2.1 step.2.2 rest

lemma buildTrace_pending_nodup (w : List CommitInfo) (hO : Option ℕ)
    (br : List BranchInfo) :
    ∀ (cs : List CommitInfo) (row : ℕ) (active : List (Option ℕ)) (maxl : ℕ),
      (active.filterMap id).Nodup →
      ∀ a ∈ buildTrace w hO br row active maxl cs, (a.filterMap id).Nodup := by
  intro cs
  induction cs with
  | nil =>
    intro row active maxl hd a ha
    simp only [buildTrace, List.mem_singleton] at ha
    exact ha ▸ hd
  | cons c rest ih =>
    intro row active maxl hd a ha
    simp only [buildTrace, List.mem_cons] at ha
    rcases ha with rfl | ha
    · exact hd
    · exact ih (row + 1) _ _ (processCommit_pending_nodup _ _ _ _ _ _ _ hd) a ha

/-- C7. Throughout a `build_graph` run the active-lane state never holds the
same pending parent oid in two lanes at once: every state in the row trace
has pairwise-distinct pending oids, and a single `parentStep` (which searches
the state before allocating and writes only after a failed search) preserves
that property from any state. -/
theorem no_duplicate_pending_parents :
    (∀ (commits : List CommitInfo) (branches : List BranchInfo)
        (a : List (Option ℕ)),
      a ∈ buildTrace commits (headOidOf branches) branches 0 [] 0 commits →
      (pendingOids a).Nodup) ∧
    (∀ (w : List CommitInfo) (lane : ℕ) (st : RouteState) (ip : ℕ × ℕ),
      (pendingOids st.active).Nodup →
      (pendingOids (parentStep w lane st ip).active).Nodup) := by
  constructor
  · intro commits branches a ha
    exact buildTrace_pending_nodup commits (headOidOf branches) branches
      commits 0 [] 0 (by simp [List.filterMap]) a ha
  · intro w lane st ip hd
    exact parentStep_pending_nodup w lane st ip hd

theorem no_duplicate_pending_parents_witness :
    (pendingOids []).Nodup ∧
    (pendingOids (parentStep [mkCommit 1 [2], mkCommit 2 []] 0
        ⟨[], [none], 0⟩ (0, 2)).active).Nodup :=
  ⟨no_duplicate_pending_parents.1 [mkCommit 1 [2], mkCommit 2 []] [] []
      (by decide),
   no_duplicate_pending_parents.2 [mkCommit 1 [2], mkCommit 2 []] 0
      ⟨[], [none], 0⟩ (0, 2) (by decide)⟩

/-- Mirrors `App::jump_to_next_branch` (src/app.rs): scan forward from the
selection for the first node with a non-empty branch-name list; select it,
or leave the selection unchanged. -/
def jump_to_next_branch (nodes : List GraphNode) (selected : Option ℕ) :
    Option ℕ :=
  let current := selected.getD 0
  match (nodes.enum.drop (current + 1)).find?
      (fun x => !x.2.branch_names.isEmpty) with
  | some x => some x.1
  | none => selected

/-- Mirrors `App::jump_to_prev_branch` (src/app.rs): scan backward from the
selection for the nearest node with a non-empty branch-name list. -/
def jump_to_prev_branch (nodes : List GraphNode) (selected : Option ℕ) :
    Option ℕ :=
  let current := selected.getD 0
  match ((nodes.enum.take current).reverse).find?
      (fun x => !x.2.branch_names.isEmpty) with
  | some x => some x.1
  | none => selected

lemma enumFrom_drop {α} (l : List α) :
    ∀ (s m : ℕ), (List.enumFrom s l).drop m = List.enumFrom (s + m) (l.drop m) := by
  induction l with
  | nil => intro s m; simp
  | cons a t ih =>
    intro s m
    cases m with
    | zero => simp
    | succ n =>
      simp only [List.enumFrom, List.drop]
      rw [ih (s + 1) n]
      congr 1
      omega

lemma enumFrom_take {α} (l : List α) :
    ∀ (s m : ℕ), (List.enumFrom s l).take m = List.enumFrom s (l.take m) := by
  induction l with
  | nil => intro s m; simp
  | cons a t ih =>
    intro s m
    cases m with
    | zero => simp
    | succ n =>
      simp only [List.enumFrom, List.take]
      rw [ih (s + 1) n]

lemma find?_enumFrom_eq_some {α} (q : α → Bool) (l : List α) :
    ∀ (s i : ℕ) (a : α),
      (List.enumFrom s l).find? (fun x => q x.2) = some (i, a) →
      s ≤ i ∧ l[i - s]? = some a ∧ q a = true ∧
        ∀ k b, k < i - s → l[k]? = some b → q b = false := by
  induction l with
  | nil => intro s i a h; simp at h
  | cons c t ih =>
    intro s i a h
    simp only [List.enumFrom] at h
    by_cases hq : q c
    · rw [List.find?_cons_of_pos _ (by simpa using hq)] at h
      injection h with hpair
      injection hpair with h1 h2
      subst h1
      subst h2
      refine ⟨le_refl s, ?_, hq, ?_⟩
      · simp
      · intro k b hk _
        omega
    · rw [List.find?_cons_of_neg _ (by simpa using hq)] at h
      obtain ⟨hs, hget, hqa, hmin⟩ := ih (s + 1) i a h
      refine ⟨by omega, ?_, hqa, ?_⟩
      · have : i - s = (i - (s + 1)) + 1 := by omega
        rw [this, List.getElem?_cons_succ]
        exact hget
      · intro k b hk hb
        cases k with
        | zero =>
          have hbc : c = b := by simpa using hb
          subst hbc
          simpa using hq
        | succ k' =>
          rw [List.getElem?_cons_succ] at hb
          exact hmin k' b (by omega) hb

lemma find?_enumFrom_eq_none {α} (q : α → Bool) (l : List α) (s : ℕ)
    (h : (List.enumFrom s l).find? (fun x => q x.2) = none) :
    ∀ (k : ℕ) (b : α), l[k]? = some b → q b = false := by
  intro k b hb
  have hall := List.find?_eq_none.mp h
  have hmem : (s + k, b) ∈ List.enumFrom s l := by
    rw [List.mk_add_mem_enumFrom_iff_getElem?]
    exact hb
  simpa using hall _ hmem

lemma find?_reverse_enumFrom_eq_some {α} (q : α → Bool) (l : List α)
    (s i : ℕ) (a : α)
    (h : ((List.enumFrom s l).reverse).find? (fun x => q x.2) = some (i, a)) :
    s ≤ i ∧ l[i - s]? = some a ∧ q a = true ∧
      ∀ k b, i - s < k → l[k]? = some b → q b = false := by
  induction l using List.reverseRecOn generalizing i a with
  | nil => simp at h
  | append_singleton t x ih =>
    rw [List.enumFrom_append, List.reverse_append] at h
    simp only [List.enumFrom, List.reverse_cons, List.reverse_nil,
      List.nil_append, List.singleton_append] at h
    by_cases hq : q x
    · rw [List.find?_cons_of_pos _ (by simpa using hq)] at h
      injection h with hpair
      injection hpair with h1 h2
      subst h2
      refine ⟨by omega, ?_, hq, ?_⟩
      · have hts : i - s = t.length := by omega
        rw [hts]
        exact List.getElem?_concat_length t x
      · intro k b hk hb
        have hlen : (t ++ [x]).length ≤ k := by
          simp only [List.length_append, List.length_singleton]
          omega
        rw [List.getElem?_eq_none hlen] at hb
        exact Option.noConfusion hb
    · rw [List.find?_cons_of_neg _ (by simpa using hq)] at h
      obtain ⟨hs, hget, hqa, hmin⟩ := ih i a h
      have hlt : i - s < t.length := by
        by_contra hge
        rw [List.getElem?_eq_none (by omega)] at hget
        exact Option.noConfusion hget
      refine ⟨hs, ?_, hqa, ?_⟩
      · rw [List.getElem?_append]
        simp [hlt, hget]
      · intro k b hk hb
        rcases Nat.lt_trichotomy k t.length with hkt | hkt | hkt
        · rw [List.getElem?_append] at hb
          simp only [hkt, if_true] at hb
          exact hmin k b hk hb
        · subst hkt
          have hbx : x = b := by
            rw [List.getElem?_concat_length] at hb
            exact Option.some.inj hb
          subst hbx
          simpa using hq
        · have hlen : (t ++ [x]).length ≤ k := by
            simp only [List.length_append, List.length_singleton]
            omega
          rw [List.getElem?_eq_none hlen] at hb
          exact Option.noConfusion hb

lemma find?_reverse_enumFrom_eq_none {α} (q : α → Bool) (l : List α) (s : ℕ)
    (h : ((List.enumFrom s l).reverse).find? (fun x => q x.2) = none) :
    ∀ (k : ℕ) (b : α), l[k]? = some b → q b = false := by
  intro k b hb
  rcases List.find?_eq_none.mp h with hall
  have hk : k < l.length := by
    rcases List.getElem?_eq_some.mp hb with ⟨hlt, _⟩
    exact hlt
  have hmem : (s + k, b) ∈ (List.enumFrom s l).reverse := by
    rw [List.mem_reverse]
    rw [List.mk_add_mem_enumFrom_iff_getElem?]
    exact hb
  have := hall _ hmem
  simpa using this

/-- C9. `jump_to_next_branch` selects the smallest row index strictly greater
than the current selection whose node has branch labels, and
`jump_to_prev_branch` the largest strictly smaller one; when no such row
exists the selection is unchanged. -/
theorem jump_to_branch_nearest (nodes : List GraphNode) (cur : ℕ) :
    (∀ j nj, cur < j → nodes[j]? = some nj → nj.branch_names ≠ [] →
      ∃ i ni, jump_to_next_branch nodes (some cur) = some i ∧ cur < i ∧
        nodes[i]? = some ni ∧ ni.branch_names ≠ [] ∧
        ∀ k nk, cur < k → k < i → nodes[k]? = some nk →
          nk.branch_names = []) ∧
    ((∀ j nj, cur < j → nodes[j]? = some nj → nj.branch_names = []) →
      jump_to_next_branch nodes (some cur) = some cur) ∧
    (∀ j nj, j < cur → nodes[j]? = some nj → nj.branch_names ≠ [] →
      ∃ i ni, jump_to_prev_branch nodes (some cur) = some i ∧ i < cur ∧
        nodes[i]? = some ni ∧ ni.branch_names ≠ [] ∧
        ∀ k nk, i < k → k < cur → nodes[k]? = some nk →
          nk.branch_names = []) ∧
    ((∀ j nj, j < cur → nodes[j]? = some nj → nj.branch_names = []) →
      jump_to_prev_branch nodes (some cur) = some cur) := by
  have hdrop : nodes.enum.drop (cur + 1) =
      List.enumFrom (cur + 1) (nodes.drop (cur + 1)) := by
    show (List.enumFrom 0 nodes).drop (cur + 1) = _
    rw [enumFrom_drop]
    simp
  have htake : nodes.enum.take cur = List.enumFrom 0 (nodes.take cur) := by
    show (List.enumFrom 0 nodes).take cur = _
    rw [enumFrom_take]
  refine ⟨?_, ?_, ?_, ?_⟩
  · intro j nj hj hget hne
    unfold jump_to_next_branch
    simp only [Option.getD_some]
    cases hf : (nodes.enum.drop (cur + 1)).find?
        (fun x => !x.2.branch_names.isEmpty) with
    | none =>
      exfalso
      rw [hdrop] at hf
      have := find?_enumFrom_eq_none (fun (n : GraphNode) => !n.branch_names.isEmpty) _ _ hf
        (j - (cur + 1)) nj
        (by rw [List.getElem?_drop]; rw [show cur + 1 + (j - (cur + 1)) = j by omega]
            exact hget)
      simp only [Bool.not_eq_false', List.isEmpty_iff] at this
      exact hne this
    | some x =>
      rcases x with ⟨i, a⟩
      rw [hdrop] at hf
      obtain ⟨hs, hget', hqa, hmin⟩ := find?_enumFrom_eq_some (fun (n : GraphNode) => !n.branch_names.isEmpty) _ _ _ _ hf
      rw [List.getElem?_drop] at hget'
      refine ⟨i, a, rfl, by omega, ?_, ?_, ?_⟩
      · rw [show i = cur + 1 + (i - (cur + 1)) by omega]
        exact hget'
      · simpa [List.isEmpty_iff] using hqa
      · intro k nk hk1 hk2 hk3
        have := hmin (k - (cur + 1)) nk (by omega)
          (by rw [List.getElem?_drop,
                show cur + 1 + (k - (cur + 1)) = k by omega]
              exact hk3)
        simpa [List.isEmpty_iff] using this
  · intro hall
    unfold jump_to_next_branch
    simp only [Option.getD_some]
    cases hf : (nodes.enum.drop (cur + 1)).find?
        (fun x => !x.2.branch_names.isEmpty) with
    | none => rfl
    | some x =>
      exfalso
      rcases x with ⟨i, a⟩
      rw [hdrop] at hf
      obtain ⟨hs, hget', hqa, _⟩ := find?_enumFrom_eq_some (fun (n : GraphNode) => !n.branch_names.isEmpty) _ _ _ _ hf
      rw [List.getElem?_drop] at hget'
      have := hall (cur + 1 + (i - (cur + 1))) a (by omega) hget'
      rw [this] at hqa
      simp at hqa
  · intro j nj hj hget hne
    unfold jump_to_prev_branch
    simp only [Option.getD_some]
    cases hf : ((nodes.enum.take cur).reverse).find?
        (fun x => !x.2.branch_names.isEmpty) with
    | none =>
      exfalso
      rw [htake] at hf
      have := find?_reverse_enumFrom_eq_none (fun (n : GraphNode) => !n.branch_names.isEmpty)
        _ _ hf j nj
        (by rw [List.getElem?_take]; simp [hj, hget])
      simp only [Bool.not_eq_false', List.isEmpty_iff] at this
      exact hne this
    | some x =>
      rcases x with ⟨i, a⟩
      rw [htake] at hf
      obtain ⟨_, hget', hqa, hmin⟩ :=
        find?_reverse_enumFrom_eq_some (fun (n : GraphNode) => !n.branch_names.isEmpty) _ _ _ _ hf
      simp only [Nat.sub_zero] at hget' hmin
      have hi : i < cur := by
        rcases List.getElem?_eq_some.mp hget' with ⟨hlt, _⟩
        rw [List.length_take] at hlt
        omega
      rw [List.getElem?_take] at hget'
      simp only [hi, if_true] at hget'
      refine ⟨i, a, rfl, hi, hget', by simpa [List.isEmpty_iff] using hqa, ?_⟩
      intro k nk hk1 hk2 hk3
      have := hmin k nk hk1 (by rw [List.getElem?_take]; simp [hk2, hk3])
      simpa [List.isEmpty_iff] using this
  · intro hall
    unfold jump_to_prev_branch
    simp only [Option.getD_some]
    cases hf : ((nodes.enum.take cur).reverse).find?
        (fun x => !x.2.branch_names.isEmpty) with
    | none => rfl
    | some x =>
      exfalso
      rcases x with ⟨i, a⟩
      rw [htake] at hf
      obtain ⟨_, hget', hqa, _⟩ :=
        find?_reverse_enumFrom_eq_some (fun (n : GraphNode) => !n.branch_names.isEmpty) _ _ _ _ hf
      simp only [Nat.sub_zero] at hget'
      have hi : i < cur := by
        rcases List.getElem?_eq_some.mp hget' with ⟨hlt, _⟩
        rw [List.length_take] at hlt
        omega
      rw [List.getElem?_take] at hget'
      simp only [hi, if_true] at hget'
      have := hall i a hi hget'
      rw [this] at hqa
      simp at hqa

/-- The demo nodes used by navigation witnesses. -/
def demoNodeA : GraphNode :=
  { commit := mkCommit 1 [], lane := 0, row := 0, connections := []
    active_lanes := [true], branch_names := [], is_head := false }

def demoNodeB : GraphNode :=
  { commit := mkCommit 2 [], lane := 0, row := 1, connections := []
    active_lanes := [true], branch_names := ["main"], is_head := false }

theorem jump_to_branch_nearest_witness :
    ∃ i ni, jump_to_next_branch [demoNodeA, demoNodeB] (some 0) = some i ∧
      0 < i ∧ [demoNodeA, demoNodeB][i]? = some ni ∧ ni.branch_names ≠ [] ∧
      ∀ k nk, 0 < k → k < i → [demoNodeA, demoNodeB][k]? = some nk →
        nk.branch_names = [] :=
  (jump_to_branch_nearest [demoNodeA, demoNodeB] 0).1 1 demoNodeB
    (by decide) (by decide) (by decide)

/-- Mirrors `ratatui::style::Color` restricted to the variants the palette
uses (src/graph/colors.rs). -/
inductive Color where
  | Cyan
  | Green
  | Magenta
  | Yellow
  | Red
  | LightCyan
  | LightGreen
  | LightMagenta
  | LightYellow
  | LightBlue
  | LightRed
deriving DecidableEq

/-- Mirrors `LANE_COLORS` (src/graph/colors.rs, lines 7-19): the 11-color
rotation palette. -/
def LANE_COLORS : List Color :=
  [Color.Cyan, Color.Green, Color.Magenta, Color.Yellow, Color.Red,
   Color.LightCyan, Color.LightGreen, Color.LightMagenta, Color.LightYellow,
   Color.LightBlue, Color.LightRed]

/-- Mirrors `get_color_by_index`: `LANE_COLORS[color_index % LANE_COLORS.len()]`. -/
def get_color_by_index (color_index : ℕ) : Color :=
  LANE_COLORS.get ⟨color_index % LANE_COLORS.length,
    Nat.mod_lt _ (by decide)⟩

/-- Mirrors `get_lane_color` (src/graph/colors.rs, lines 27-29). -/
def get_lane_color (lane : ℕ) : Color :=
  get_color_by_index lane

/-- Mirrors `MAIN_BRANCH_COLOR` (index of `Color::LightBlue`). -/
def MAIN_BRANCH_COLOR : ℕ := 9

/-- Mirrors `ColorAssigner` (src/graph/colors.rs).  `HashSet<usize>` is a
`Finset ℕ`, `VecDeque` a list (front = oldest), `[usize; 11]` a list of
length 11, and `f64` penalties are exact rationals. -/
structure ColorAssigner where
  lane_colors : List (Option ℕ)
  lane_last_color : List ℕ
  next_color_index : ℕ
  reserved_colors : Finset ℕ
  recent_assignments : List (ℕ × ℕ × ℕ)
  history_window : ℕ
  current_row : ℕ
  current_fork_colors : Finset ℕ
  color_usage_count : List ℕ
  main_lane : Option ℕ
deriving DecidableEq

namespace ColorAssigner

/-- Mirrors `ColorAssigner::new`. -/
def new : ColorAssigner :=
  { lane_colors := []
    lane_last_color := []
    next_color_index := 0
    reserved_colors := ∅
    recent_assignments := []
    history_window := 6
    current_row := 0
    current_fork_colors := ∅
    color_usage_count := List.replicate 11 0
    main_lane := none }

/-- Mirrors `is_main_lane`. -/
def is_main_lane (s : ColorAssigner) (lane : ℕ) : Bool :=
  s.main_lane == some lane

/-- Mirrors `get_main_color`. -/
def get_main_color (_s : ColorAssigner) : ℕ :=
  MAIN_BRANCH_COLOR

/-- Mirrors `reserve_color`. -/
def reserve_color (s : ColorAssigner) (color_index : ℕ) : ColorAssigner :=
  { s with reserved_colors := insert color_index s.reserved_colors }

/-- Mirrors `ensure_capacity`: pushes `(None, 0)` pairs until `lane_colors`
covers `lane`. -/
def ensure_capacity (s : ColorAssigner) (lane : ℕ) : ColorAssigner :=
  let k := lane + 1 - s.lane_colors.length
  { s with
      lane_colors := s.lane_colors ++ List.replicate k none
      lane_last_color := s.lane_last_color ++ List.replicate k 0 }

/-- Mirrors `get_lane_color_index`. -/
def get_lane_color_index (s : ColorAssigner) (lane : ℕ) : Option ℕ :=
  (s.lane_colors.getD lane none)

/-- Mirrors `advance_row`. -/
def advance_row (s : ColorAssigner) : ColorAssigner :=
  { s with
      current_row := s.current_row + 1
      current_fork_colors := ∅ }

/-- Mirrors `begin_fork`. -/
def begin_fork (s : ColorAssigner) : ColorAssigner :=
  { s with current_fork_colors := ∅ }

end ColorAssigner

/-- Penalty component 1 (colors.rs lines 128-130): the lane's own previous
color. -/
def penaltyLast (s : ColorAssigner) (lane c : ℕ) : ℚ :=
  if s.lane_last_color.getD lane 0 = c then 10 else 0

/-- Penalty component 2 (lines 132-140): colors of all active lanes,
weighted by inverse lane distance. -/
def penaltyActive (s : ColorAssigner) (lane c : ℕ) : ℚ :=
  ((s.lane_colors.enum).map (fun ol =>
    if ol.2 = some c then
      8 / (((((lane : ℤ) - (ol.1 : ℤ)).natAbs : ℕ) : ℚ) + 1)
    else 0)).sum

/-- Penalty component 3 (lines 142-151): recent assignment history, weighted
by inverse row and lane distance. -/
def penaltyHist (s : ColorAssigner) (lane c : ℕ) : ℚ :=
  (s.recent_assignments.map (fun e =>
    if e.2.2 = c then
      (4 / (((s.current_row - e.1 : ℕ) : ℚ) + 1)) *
        (2 / (((((lane : ℤ) - (e.2.1 : ℤ)).natAbs : ℕ) : ℚ) + 1))
    else 0)).sum

/-- Penalty component 4 (lines 153-158): colors already used by a fork
sibling in this row. -/
def penaltyFork (s : ColorAssigner) (is_fork_sibling : Bool) (c : ℕ) : ℚ :=
  if is_fork_sibling ∧ c ∈ s.current_fork_colors then 100 else 0

/-- The maximum usage count over the 11 palette slots (line 161). -/
def maxUsage (s : ColorAssigner) : ℕ :=
  s.color_usage_count.foldr max 0

/-- Penalty component 5 (lines 160-166): usage-count fairness. -/
def penaltyUsage (s : ColorAssigner) (c : ℕ) : ℚ :=
  if maxUsage s = 0 then 0
  else ((s.color_usage_count.getD c 0 : ℚ) / (maxUsage s : ℚ)) * 2

/-- The total penalty of candidate color `c` (lines 125-166). -/
def penalty (s : ColorAssigner) (lane : ℕ) (is_fork_sibling : Bool)
    (c : ℕ) : ℚ :=
  penaltyLast s lane c + penaltyActive s lane c + penaltyHist s lane c +
    penaltyFork s is_fork_sibling c + penaltyUsage s c

/-- One iteration of the candidate scan of `assign_color_advanced`
(lines 172-185): reserved candidates are skipped unless `useReserved`, and
the running best is improved only on a strictly smaller penalty (the
`f64::MAX` sentinel of `best_penalty` is modelled by `none`). -/
def selStep (pen : ℕ → ℚ) (next : ℕ) (reserved : Finset ℕ)
    (useReserved : Bool) (acc : ℕ × Option ℚ) (cand : ℕ) : ℕ × Option ℚ :=
  let idx := (next + cand) % 11
  if ¬useReserved ∧ idx ∈ reserved then acc
  else
    match acc.2 with
    | none => (idx, some (pen idx))
    | some bp => if pen idx < bp then (idx, some (pen idx)) else acc

/-- The candidate scan of `assign_color_advanced` (lines 168-185): candidates
in palette order starting at `next_color_index`, initial best
`next_color_index` itself. -/
def selectColor (pen : ℕ → ℚ) (next : ℕ) (reserved : Finset ℕ)
    (useReserved : Bool) : ℕ :=
  ((List.range 11).foldl (selStep pen next reserved useReserved)
    (next, (none : Option ℚ))).1

namespace ColorAssigner

/-- Mirrors `assign_color_advanced` (lines 117-208). -/
def assign_color_advanced (s : ColorAssigner) (lane : ℕ)
    (is_fork_sibling use_reserved : Bool) : ℕ × ColorAssigner :=
  let s1 := s.ensure_capacity lane
  let best := selectColor (penalty s1 lane is_fork_sibling)
    s1.next_color_index s1.reserved_colors use_reserved
  let hist := s1.recent_assignments ++ [(s1.current_row, lane, best)]
  (best,
    { s1 with
        lane_colors := s1.lane_colors.set lane (some best)
        lane_last_color := s1.lane_last_color.set lane best
        next_color_index := (best + 1) % 11
        recent_assignments := hist.drop (hist.length - s1.history_window)
        color_usage_count := s1.color_usage_count.set best
          (s1.color_usage_count.getD best 0 + 1)
        current_fork_colors :=
          if is_fork_sibling then insert best s1.current_fork_colors
          else s1.current_fork_colors })

/-- Mirrors `assign_color` (lines 211-213). -/
def assign_color (s : ColorAssigner) (lane : ℕ) : ℕ × ColorAssigner :=
  s.assign_color_advanced lane false false

/-- Mirrors `assign_fork_sibling_color` (lines 216-218). -/
def assign_fork_sibling_color (s : ColorAssigner) (lane : ℕ) :
    ℕ × ColorAssigner :=
  s.assign_color_advanced lane true false

/-- Mirrors `assign_main_color` (lines 221-230). -/
def assign_main_color (s : ColorAssigner) (lane : ℕ) : ℕ × ColorAssigner :=
  let s1 := s.ensure_capacity lane
  let color := MAIN_BRANCH_COLOR
  (color,
    { s1 with
        lane_colors := s1.lane_colors.set lane (some color)
        lane_last_color := s1.lane_last_color.set lane color
        reserved_colors := insert color s1.reserved_colors
        main_lane := some lane
        color_usage_count := s1.color_usage_count.set color
          (s1.color_usage_count.getD color 0 + 1) })

/-- Mirrors `continue_lane` (lines 234-240). -/
def continue_lane (s : ColorAssigner) (lane : ℕ) : ℕ × ColorAssigner :=
  if s.main_lane = some lane then (MAIN_BRANCH_COLOR, s)
  else
    let s1 := s.ensure_capacity lane
    match s1.lane_colors.getD lane none with
    | some c => (c, s1)
    | none => s1.assign_color lane

/-- Mirrors `release_lane` (lines 244-248). -/
def release_lane (s : ColorAssigner) (lane : ℕ) : ColorAssigner :=
  if lane < s.lane_colors.length ∧ s.main_lane ≠ some lane then
    { s with lane_colors := s.lane_colors.set lane none }
  else s

end ColorAssigner

/-- The `ColorAssigner` operations available to a build after the main lane
is designated (the claim's "rest of the build": `continue_lane`,
`release_lane`, `assign_color`, `assign_fork_sibling_color`, plus the row
boundary calls `advance_row` and `begin_fork`). -/
inductive ColorOp where
  | continueL (lane : ℕ)
  | releaseL (lane : ℕ)
  | assignC (lane : ℕ)
  | assignFork (lane : ℕ)
  | advance
  | fork
deriving DecidableEq

def applyOp (s : ColorAssigner) : ColorOp → ColorAssigner
  | ColorOp.continueL l => (s.continue_lane l).2
  | ColorOp.releaseL l => s.release_lane l
  | ColorOp.assignC l => (s.assign_color l).2
  | ColorOp.assignFork l => (s.assign_fork_sibling_color l).2
  | ColorOp.advance => s.advance_row
  | ColorOp.fork => s.begin_fork

def applyOps (s : ColorAssigner) (ops : List ColorOp) : ColorAssigner :=
  ops.foldl applyOp s

lemma selStep_skip (pen : ℕ → ℚ) (next : ℕ) (R : Finset ℕ)
    (acc : ℕ × Option ℚ) (cand : ℕ) (hres : ((next + cand) % 11) ∈ R) :
    selStep pen next R false acc cand = acc := by
  unfold selStep
  rw [if_pos (by simp [hres])]

lemma selStep_none (pen : ℕ → ℚ) (next : ℕ) (R : Finset ℕ)
    (acc : ℕ × Option ℚ) (cand : ℕ) (hres : ((next + cand) % 11) ∉ R)
    (h2 : acc.2 = none) :
    selStep pen next R false acc cand =
      ((next + cand) % 11, some (pen ((next + cand) % 11))) := by
  unfold selStep
  rw [if_neg (by simp [hres]), h2]

lemma selStep_some (pen : ℕ → ℚ) (next : ℕ) (R : Finset ℕ)
    (acc : ℕ × Option ℚ) (cand : ℕ) (bp0 : ℚ)
    (hres : ((next + cand) % 11) ∉ R) (h2 : acc.2 = some bp0) :
    selStep pen next R false acc cand =
      (if pen ((next + cand) % 11) < bp0 then
        ((next + cand) % 11, some (pen ((next + cand) % 11)))
      else acc) := by
  unfold selStep
  rw [if_neg (by simp [hres]), h2]

lemma selFold_inv (pen : ℕ → ℚ) (next : ℕ) (R : Finset ℕ) :
    ∀ (cands : List ℕ) (acc : ℕ × Option ℚ),
      (∀ bp, acc.2 = some bp → acc.1 ∉ R ∧ bp = pen acc.1) →
      ∀ bp, (cands.foldl (selStep pen next R false) acc).2 = some bp →
        (cands.foldl (selStep pen next R false) acc).1 ∉ R ∧
          bp = pen (cands.foldl (selStep pen next R false) acc).1 := by
  intro cands
  induction cands with
  | nil => intro acc hacc; exact hacc
  | cons cand rest ih =>
    intro acc hacc
    rw [List.foldl_cons]
    refine ih (selStep pen next R false acc cand) ?_
    intro bp hbp
    by_cases hres : ((next + cand) % 11) ∈ R
    · rw [selStep_skip pen next R acc cand hres] at hbp ⊢
      exact hacc bp hbp
    · cases h2 : acc.2 with
      | none =>
        rw [selStep_none pen next R acc cand hres h2] at hbp ⊢
        exact ⟨hres, (Option.some.inj hbp).symm⟩
      | some bp0 =>
        rw [selStep_some pen next R acc cand bp0 hres h2] at hbp ⊢
        by_cases hlt : pen ((next + cand) % 11) < bp0
        · rw [if_pos hlt] at hbp ⊢
          exact ⟨hres, (Option.some.inj hbp).symm⟩
        · rw [if_neg hlt] at hbp ⊢
          exact hacc bp hbp

lemma selFold_mono (pen : ℕ → ℚ) (next : ℕ) (R : Finset ℕ) :
    ∀ (cands : List ℕ) (acc : ℕ × Option ℚ) (bp : ℚ), acc.2 = some bp →
      ∃ bp', (cands.foldl (selStep pen next R false) acc).2 = some bp' ∧
        bp' ≤ bp := by
  intro cands
  induction cands with
  | nil => intro acc bp hacc; exact ⟨bp, hacc, le_refl bp⟩
  | cons cand rest ih =>
    intro acc bp hacc
    rw [List.foldl_cons]
    by_cases hres : ((next + cand) % 11) ∈ R
    · rw [selStep_skip pen next R acc cand hres]
      exact ih acc bp hacc
    · rw [selStep_some pen next R acc cand bp hres hacc]
      by_cases hlt : pen ((next + cand) % 11) < bp
      · rw [if_pos hlt]
        obtain ⟨bp', h1, h2⟩ := ih ((next + cand) % 11,
          some (pen ((next + cand) % 11))) (pen ((next + cand) % 11)) rfl
        exact ⟨bp', h1, le_trans h2 (le_of_lt hlt)⟩
      · rw [if_neg hlt]
        exact ih acc bp hacc

lemma selFold_reach (pen : ℕ → ℚ) (next : ℕ) (R : Finset ℕ) :
    ∀ (cands : List ℕ) (acc : ℕ × Option ℚ) (cand : ℕ), cand ∈ cands →
      ((next + cand) % 11) ∉ R →
      ∃ bp', (cands.foldl (selStep pen next R false) acc).2 = some bp' ∧
        bp' ≤ pen ((next + cand) % 11) := by
  intro cands
  induction cands with
  | nil => intro acc cand hmem; simp at hmem
  | cons c0 rest ih =>
    intro acc cand hmem hres
    rcases List.mem_cons.mp hmem with rfl | hmem
    · rw [List.foldl_cons]
      cases h2 : acc.2 with
      | none =>
        rw [selStep_none pen next R acc cand hres h2]
        exact selFold_mono pen next R rest ((next + cand) % 11,
          some (pen ((next + cand) % 11))) (pen ((next + cand) % 11)) rfl
      | some bp0 =>
        rw [selStep_some pen next R acc cand bp0 hres h2]
        by_cases hlt : pen ((next + cand) % 11) < bp0
        · rw [if_pos hlt]
          exact selFold_mono pen next R rest ((next + cand) % 11,
            some (pen ((next + cand) % 11))) (pen ((next + cand) % 11)) rfl
        · rw [if_neg hlt]
          obtain ⟨bp', h1, hle⟩ := selFold_mono pen next R rest acc bp0 h2
          exact ⟨bp', h1, le_trans hle (not_lt.mp hlt)⟩
    · rw [List.foldl_cons]
      exact ih (selStep pen next R false acc c0) cand hmem hres

lemma mod_coverage (next c : ℕ) (hc : c < 11) :
    ∃ cand ∈ List.range 11, (next + cand) % 11 = c := by
  refine ⟨(c + 11 - next % 11) % 11, List.mem_range.mpr ?_, by omega⟩
  omega

/-- The candidate scan returns a non-reserved color of minimal penalty among
the non-reserved colors, provided some color is not reserved. -/
lemma selectColor_spec (pen : ℕ → ℚ) (next : ℕ) (R : Finset ℕ)
    (h : ∃ c, c < 11 ∧ c ∉ R) :
    selectColor pen next R false ∉ R ∧
      ∀ c, c < 11 → c ∉ R → pen (selectColor pen next R false) ≤ pen c := by
  obtain ⟨c0, hc0, hc0R⟩ := h
  obtain ⟨cand0, hcand0, hidx0⟩ := mod_coverage next c0 hc0
  obtain ⟨bp, hout, _⟩ := selFold_reach pen next R (List.range 11)
    (next, none) cand0 hcand0 (by rw [hidx0]; exact hc0R)
  have hinv := selFold_inv pen next R (List.range 11) (next, none)
    (by intro bp h; exact Option.noConfusion h) bp hout
  constructor
  · exact hinv.1
  · intro c hc hcR
    obtain ⟨cand, hcand, hidx⟩ := mod_coverage next c hc
    obtain ⟨bp2, hout2, hle2⟩ := selFold_reach pen next R (List.range 11)
      (next, none) cand hcand (by rw [hidx]; exact hcR)
    rw [hout] at hout2
    have hbp2 : bp = bp2 := Option.some.inj hout2
    unfold selectColor
    rw [← hinv.2, hbp2]
    rw [hidx] at hle2
    exact hle2

lemma getElem?_set_self_of_lt {α} (l : List α) (i : ℕ) (a : α)
    (h : i < l.length) : (l.set i a)[i]? = some a := by
  rw [List.getElem?_set_self']
  simp [List.getElem?_eq_getElem h]

lemma continue_lane_main_reserved (s : ColorAssigner) (l : ℕ) :
    (s.continue_lane l).2.main_lane = s.main_lane ∧
    (s.continue_lane l).2.reserved_colors = s.reserved_colors := by
  unfold ColorAssigner.continue_lane
  by_cases h : s.main_lane = some l
  · rw [if_pos h]
    exact ⟨rfl, rfl⟩
  · rw [if_neg h]
    dsimp only
    split
    · exact ⟨rfl, rfl⟩
    · exact ⟨rfl, rfl⟩

lemma release_lane_main_reserved (s : ColorAssigner) (l : ℕ) :
    (s.release_lane l).main_lane = s.main_lane ∧
    (s.release_lane l).reserved_colors = s.reserved_colors := by
  unfold ColorAssigner.release_lane
  by_cases h : l < s.lane_colors.length ∧ s.main_lane ≠ some l
  · rw [if_pos h]
    exact ⟨rfl, rfl⟩
  · rw [if_neg h]
    exact ⟨rfl, rfl⟩

lemma applyOp_main_reserved (s : ColorAssigner) (op : ColorOp) :
    (applyOp s op).main_lane = s.main_lane ∧
    (applyOp s op).reserved_colors = s.reserved_colors := by
  cases op with
  | continueL l => exact continue_lane_main_reserved s l
  | releaseL l => exact release_lane_main_reserved s l
  | assignC l => exact ⟨rfl, rfl⟩
  | assignFork l => exact ⟨rfl, rfl⟩
  | advance => exact ⟨rfl, rfl⟩
  | fork => exact ⟨rfl, rfl⟩

lemma applyOps_main_reserved (ops : List ColorOp) :
    ∀ s : ColorAssigner, (applyOps s ops).main_lane = s.main_lane ∧
      (applyOps s ops).reserved_colors = s.reserved_colors := by
  induction ops with
  | nil => intro s; exact ⟨rfl, rfl⟩
  | cons op rest ih =>
    intro s
    have h1 := applyOp_main_reserved s op
    have h2 := ih (applyOp s op)
    exact ⟨h2.1.trans h1.1, h2.2.trans h1.2⟩

lemma assign_advanced_avoids_reserved (s : ColorAssigner) (lane : ℕ)
    (f : Bool) (hex : ∃ c, c < 11 ∧ c ∉ s.reserved_colors) :
    (s.assign_color_advanced lane f false).1 ∉ s.reserved_colors := by
  show selectColor (penalty (s.ensure_capacity lane) lane f)
    (s.ensure_capacity lane).next_color_index
    (s.ensure_capacity lane).reserved_colors false ∉ s.reserved_colors
  exact (selectColor_spec _ _ _ hex).1

/-- C5. After `assign_main_color l` the main lane's stored color is
`MAIN_BRANCH_COLOR`, and after any further sequence of build operations
(`continue_lane`, `release_lane`, `assign_color`,
`assign_fork_sibling_color`, `advance_row`, `begin_fork`):
`continue_lane l` still returns `MAIN_BRANCH_COLOR`, `release_lane l` is a
no-op, and no `assign_color` or `assign_fork_sibling_color` call (which
exclude reserved colors) returns `MAIN_BRANCH_COLOR`. -/
theorem main_lane_color_stable (s : ColorAssigner) (l : ℕ)
    (ops : List ColorOp)
    (hres : ∀ c ∈ s.reserved_colors, c = MAIN_BRANCH_COLOR) :
    (s.assign_main_color l).2.lane_colors.getD l none =
      some MAIN_BRANCH_COLOR ∧
    ((applyOps (s.assign_main_color l).2 ops).continue_lane l).1 =
      MAIN_BRANCH_COLOR ∧
    (applyOps (s.assign_main_color l).2 ops).release_lane l =
      applyOps (s.assign_main_color l).2 ops ∧
    (∀ lane, ((applyOps (s.assign_main_color l).2 ops).assign_color lane).1 ≠
      MAIN_BRANCH_COLOR) ∧
    (∀ lane, ((applyOps (s.assign_main_color l).2 ops).assign_fork_sibling_color
      lane).1 ≠ MAIN_BRANCH_COLOR) := by
  have hmain : (applyOps (s.assign_main_color l).2 ops).main_lane = some l := by
    rw [(applyOps_main_reserved ops _).1]
    rfl
  have hresv : (applyOps (s.assign_main_color l).2 ops).reserved_colors =
      insert MAIN_BRANCH_COLOR s.reserved_colors := by
    rw [(applyOps_main_reserved ops _).2]
    rfl
  have hex : ∃ c, c < 11 ∧
      c ∉ (applyOps (s.assign_main_color l).2 ops).reserved_colors := by
    refine ⟨0, by norm_num, ?_⟩
    rw [hresv]
    intro hmem
    rcases Finset.mem_insert.mp hmem with h | h
    · exact absurd h (by decide)
    · exact absurd (hres 0 h) (by decide)
  have hmem9 : MAIN_BRANCH_COLOR ∈
      (applyOps (s.assign_main_color l).2 ops).reserved_colors := by
    rw [hresv]
    exact Finset.mem_insert_self _ _
  refine ⟨?_, ?_, ?_, ?_, ?_⟩
  · show ((s.ensure_capacity l).lane_colors.set l
      (some MAIN_BRANCH_COLOR)).getD l none = some MAIN_BRANCH_COLOR
    rw [List.getD_eq_getElem?_getD, getElem?_set_self_of_lt]
    · rfl
    · show l < ((s.ensure_capacity l).lane_colors).length
      unfold ColorAssigner.ensure_capacity
      simp only [List.length_append, List.length_replicate]
      omega
  · unfold ColorAssigner.continue_lane
    rw [if_pos hmain]
  · unfold ColorAssigner.release_lane
    rw [if_neg]
    intro hcon
    exact hcon.2 hmain
  · intro lane
    intro heq
    unfold ColorAssigner.assign_color at heq
    have := assign_advanced_avoids_reserved
      (applyOps (s.assign_main_color l).2 ops) lane false hex
    rw [heq] at this
    exact this hmem9
  · intro lane
    intro heq
    unfold ColorAssigner.assign_fork_sibling_color at heq
    have := assign_advanced_avoids_reserved
      (applyOps (s.assign_main_color l).2 ops) lane true hex
    rw [heq] at this
    exact this hmem9

theorem main_lane_color_stable_witness :
    (ColorAssigner.new.assign_main_color 0).2.lane_colors.getD 0 none =
      some MAIN_BRANCH_COLOR ∧
    ((applyOps (ColorAssigner.new.assign_main_color 0).2
      [ColorOp.assignC 1, ColorOp.advance]).continue_lane 0).1 =
      MAIN_BRANCH_COLOR ∧
    (applyOps (ColorAssigner.new.assign_main_color 0).2
      [ColorOp.assignC 1, ColorOp.advance]).release_lane 0 =
      applyOps (ColorAssigner.new.assign_main_color 0).2
        [ColorOp.assignC 1, ColorOp.advance] ∧
    (∀ lane, ((applyOps (ColorAssigner.new.assign_main_color 0).2
      [ColorOp.assignC 1, ColorOp.advance]).assign_color lane).1 ≠
      MAIN_BRANCH_COLOR) ∧
    (∀ lane, ((applyOps (ColorAssigner.new.assign_main_color 0).2
      [ColorOp.assignC 1, ColorOp.advance]).assign_fork_sibling_color
      lane).1 ≠ MAIN_BRANCH_COLOR) :=
  main_lane_color_stable ColorAssigner.new 0
    [ColorOp.assignC 1, ColorOp.advance] (by decide)

/-- The color used for a lane by the rendering layer: both
`render_graph_line` (src/graph/renderer.rs) and
`render_graph_line_with_commit` (src/ui/graph_view.rs) obtain every lane
color — the commit's own lane and every continuation column — by calling
`get_lane_color` on the lane index alone; no `ColorAssigner` value is in
scope there. -/
def render_column_color (col : ℕ) : Color :=
  get_lane_color col

/-- C10. The rendering layer's color lookup is the pure total function
`lane ↦ LANE_COLORS[lane % 11]`: `get_lane_color` agrees with
`get_color_by_index`, the index is always in bounds (no panic), the lookup
is periodic with period 11, and the rendered column color is exactly this
pure lookup. -/
theorem lane_color_pure_lookup (lane : ℕ) :
    get_lane_color lane = get_color_by_index lane ∧
    get_lane_color lane = LANE_COLORS.getD (lane % 11) Color.Cyan ∧
    lane % LANE_COLORS.length < LANE_COLORS.length ∧
    get_lane_color (lane + 11) = get_lane_color lane ∧
    render_column_color lane = LANE_COLORS.getD (lane % 11) Color.Cyan := by
  have hlen : LANE_COLORS.length = 11 := rfl
  have hlt : lane % 11 < 11 := Nat.mod_lt _ (by norm_num)
  have hgetD : get_lane_color lane = LANE_COLORS.getD (lane % 11) Color.Cyan := by
    unfold get_lane_color get_color_by_index
    rw [List.getD_eq_getElem?_getD, List.getElem?_eq_getElem (by
      rw [hlen]; exact hlt)]
    rfl
  refine ⟨rfl, hgetD, ?_, ?_, hgetD⟩
  · rw [hlen]
    exact hlt
  · unfold get_lane_color get_color_by_index
    congr 1
    apply Fin.ext
    show (lane + 11) % LANE_COLORS.length = lane % LANE_COLORS.length
    rw [hlen]
    omega

lemma penaltyLast_nonneg (s : ColorAssigner) (lane c : ℕ) :
    0 ≤ penaltyLast s lane c := by
  unfold penaltyLast
  split <;> norm_num

lemma penaltyLast_le (s : ColorAssigner) (lane c : ℕ) :
    penaltyLast s lane c ≤ 10 := by
  unfold penaltyLast
  split <;> norm_num

lemma penaltyActive_nonneg (s : ColorAssigner) (lane c : ℕ) :
    0 ≤ penaltyActive s lane c := by
  unfold penaltyActive
  refine List.sum_nonneg ?_
  intro x hx
  rcases List.mem_map.mp hx with ⟨ol, _, rfl⟩
  split
  · positivity
  · exact le_refl 0

lemma penaltyHist_nonneg (s : ColorAssigner) (lane c : ℕ) :
    0 ≤ penaltyHist s lane c := by
  unfold penaltyHist
  refine List.sum_nonneg ?_
  intro x hx
  rcases List.mem_map.mp hx with ⟨e, _, rfl⟩
  split
  · positivity
  · exact le_refl 0

lemma penaltyFork_nonneg (s : ColorAssigner) (f : Bool) (c : ℕ) :
    0 ≤ penaltyFork s f c := by
  unfold penaltyFork
  split <;> norm_num

lemma penaltyUsage_nonneg (s : ColorAssigner) (c : ℕ) :
    0 ≤ penaltyUsage s c := by
  unfold penaltyUsage
  split
  · exact le_refl 0
  · positivity

lemma penalty_ge_fork (s : ColorAssigner) (lane c : ℕ)
    (hc : c ∈ s.current_fork_colors) :
    100 ≤ penalty s lane true c := by
  unfold penalty
  have hf : penaltyFork s true c = 100 := by
    unfold penaltyFork
    rw [if_pos ⟨rfl, hc⟩]
  have h1 := penaltyLast_nonneg s lane c
  have h2 := penaltyActive_nonneg s lane c
  have h3 := penaltyHist_nonneg s lane c
  have h4 := penaltyUsage_nonneg s c
  linarith [hf.ge]

lemma sum_active_le (lane c : ℕ) :
    ∀ (l : List (Option ℕ)) (off : ℕ),
      ((List.enumFrom off l).map (fun ol =>
        if ol.2 = some c then
          (8 : ℚ) / (((((lane : ℤ) - (ol.1 : ℤ)).natAbs : ℕ) : ℚ) + 1)
        else 0)).sum ≤ 8 * (l.countP (fun o => o.isSome) : ℚ) := by
  intro l
  induction l with
  | nil => intro off; simp
  | cons a t ih =>
    intro off
    simp only [List.enumFrom, List.map_cons, List.sum_cons, List.countP_cons]
    have hterm : (if a = some c then
        (8 : ℚ) / (((((lane : ℤ) - (off : ℤ)).natAbs : ℕ) : ℚ) + 1)
      else 0) ≤ (if (fun o => Option.isSome o) a then (8 : ℚ) else 0) := by
      by_cases ha : a = some c
      · rw [if_pos ha, if_pos (by rw [ha]; rfl)]
        refine div_le_self (by norm_num) ?_
        have : (0 : ℚ) ≤ ((((lane : ℤ) - (off : ℤ)).natAbs : ℕ) : ℚ) := by
          positivity
        linarith
      · rw [if_neg ha]
        split <;> norm_num
    have hrest := ih (off + 1)
    have hcount : ((t.countP (fun o => o.isSome) +
        if (fun o => Option.isSome o) a then 1 else 0 : ℕ) : ℚ) =
        (t.countP (fun o => o.isSome) : ℚ) +
          (if (fun o => Option.isSome o) a then (1 : ℚ) else 0) := by
      split <;> push_cast <;> ring
    calc _ ≤ (if (fun o => Option.isSome o) a then (8 : ℚ) else 0) +
          8 * (t.countP (fun o => o.isSome) : ℚ) := by
          exact add_le_add hterm hrest
      _ ≤ 8 * ((t.countP (fun o => o.isSome) +
          if (fun o => Option.isSome o) a then 1 else 0 : ℕ) : ℚ) := by
          rw [hcount]
          split <;> ring_nf <;> norm_num

lemma penaltyActive_le (s : ColorAssigner) (lane c : ℕ) :
    penaltyActive s lane c ≤
      8 * (s.lane_colors.countP (fun o => o.isSome) : ℚ) := by
  unfold penaltyActive
  exact sum_active_le lane c s.lane_colors 0

lemma sum_map_le_length_mul {α} (f : α → ℚ) (B : ℚ) :
    ∀ l : List α, (∀ x ∈ l, f x ≤ B) →
      (l.map f).sum ≤ B * (l.length : ℚ) := by
  intro l
  induction l with
  | nil => intro _; simp
  | cons a t ih =>
    intro hall
    simp only [List.map_cons, List.sum_cons, List.length_cons]
    have h1 := hall a (List.mem_cons_self _ _)
    have h2 := ih (fun x hx => hall x (List.mem_cons_of_mem _ hx))
    push_cast
    linarith

lemma penaltyHist_le (s : ColorAssigner) (lane c : ℕ) :
    penaltyHist s lane c ≤ 8 * (s.recent_assignments.length : ℚ) := by
  unfold penaltyHist
  refine sum_map_le_length_mul _ 8 _ ?_
  intro e _
  by_cases he : e.2.2 = c
  · rw [if_pos he]
    have h1 : (4 : ℚ) / (((s.current_row - e.1 : ℕ) : ℚ) + 1) ≤ 4 := by
      refine div_le_self (by norm_num) ?_
      have : (0 : ℚ) ≤ ((s.current_row - e.1 : ℕ) : ℚ) := by positivity
      linarith
    have h2 : (2 : ℚ) /
        (((((lane : ℤ) - (e.2.1 : ℤ)).natAbs : ℕ) : ℚ) + 1) ≤ 2 := by
      refine div_le_self (by norm_num) ?_
      have : (0 : ℚ) ≤ ((((lane : ℤ) - (e.2.1 : ℤ)).natAbs : ℕ) : ℚ) := by
        positivity
      linarith
    have h1n : (0 : ℚ) ≤ 4 / (((s.current_row - e.1 : ℕ) : ℚ) + 1) := by
      positivity
    have h2n : (0 : ℚ) ≤ 2 /
        (((((lane : ℤ) - (e.2.1 : ℤ)).natAbs : ℕ) : ℚ) + 1) := by
      positivity
    calc _ ≤ (4 : ℚ) * 2 := by
          exact mul_le_mul h1 h2 h2n (by norm_num)
      _ = 8 := by norm_num
  · rw [if_neg he]
    norm_num

lemma getD_le_foldr_max (l : List ℕ) (c : ℕ) :
    l.getD c 0 ≤ l.foldr max 0 := by
  induction l generalizing c with
  | nil => simp [List.getD]
  | cons a t ih =>
    cases c with
    | zero => simp [List.getD]
    | succ n =>
      simp only [List.getD_cons_succ, List.foldr_cons]
      exact le_trans (ih n) (le_max_right _ _)

lemma penaltyUsage_le (s : ColorAssigner) (c : ℕ) :
    penaltyUsage s c ≤ 2 := by
  unfold penaltyUsage
  split
  · norm_num
  · rename_i hmax
    have hle : s.color_usage_count.getD c 0 ≤ maxUsage s :=
      getD_le_foldr_max _ _
    have hpos : (0 : ℚ) < (maxUsage s : ℚ) := by
      have : 0 < maxUsage s := Nat.pos_of_ne_zero hmax
      exact_mod_cast this
    have : ((s.color_usage_count.getD c 0 : ℕ) : ℚ) / (maxUsage s : ℚ) ≤ 1 := by
      rw [div_le_one hpos]
      exact_mod_cast hle
    linarith

lemma penaltyFork_eq_zero (s : ColorAssigner) (f : Bool) (c : ℕ)
    (hc : c ∉ s.current_fork_colors) : penaltyFork s f c = 0 := by
  unfold penaltyFork
  rw [if_neg (fun h => hc h.2)]

lemma penalty_le_bound (s : ColorAssigner) (lane c : ℕ)
    (hcf : c ∉ s.current_fork_colors) :
    penalty s lane true c ≤
      12 + 8 * (s.lane_colors.countP (fun o => o.isSome) : ℚ) +
        8 * (s.recent_assignments.length : ℚ) := by
  unfold penalty
  have h1 := penaltyLast_le s lane c
  have h2 := penaltyActive_le s lane c
  have h3 := penaltyHist_le s lane c
  have h4 := penaltyUsage_le s c
  have h5 := penaltyFork_eq_zero s true c hcf
  linarith [h5.le, h5.ge]

lemma countP_replicate_none (k : ℕ) :
    (List.replicate k (none : Option ℕ)).countP (fun o => o.isSome) = 0 := by
  rw [List.countP_eq_zero]
  intro a ha
  rw [List.eq_of_mem_replicate ha]
  simp

lemma countP_append_replicate_none (l : List (Option ℕ)) (k : ℕ) :
    (l ++ List.replicate k (none : Option ℕ)).countP
        (fun (o : Option ℕ) => o.isSome) =
      l.countP (fun (o : Option ℕ) => o.isSome) := by
  rw [List.countP_append, countP_replicate_none]
  omega

lemma countP_set_le {α} (p : α → Bool) :
    ∀ (l : List α) (i : ℕ) (a : α),
      (l.set i a).countP p ≤ l.countP p + 1 := by
  intro l
  induction l with
  | nil => intro i a; simp
  | cons b t ih =>
    intro i a
    cases i with
    | zero =>
      simp only [List.set, List.countP_cons]
      have h := ih 0 a
      split <;> split <;> omega
    | succ n =>
      simp only [List.set, List.countP_cons]
      have h := ih n a
      omega

lemma ensure_capacity_fields (s : ColorAssigner) (lane : ℕ) :
    (s.ensure_capacity lane).reserved_colors = s.reserved_colors ∧
    (s.ensure_capacity lane).current_fork_colors = s.current_fork_colors ∧
    (s.ensure_capacity lane).recent_assignments = s.recent_assignments ∧
    (s.ensure_capacity lane).lane_colors.countP (fun o => o.isSome) =
      s.lane_colors.countP (fun o => o.isSome) :=
  ⟨rfl, rfl, rfl, countP_append_replicate_none _ _⟩

lemma assign_advanced_state (s : ColorAssigner) (lane : ℕ) (f u : Bool) :
    (s.assign_color_advanced lane f u).2.reserved_colors =
      s.reserved_colors ∧
    (s.assign_color_advanced lane f u).2.current_fork_colors =
      (if f then
        insert (s.assign_color_advanced lane f u).1 s.current_fork_colors
      else s.current_fork_colors) ∧
    (s.assign_color_advanced lane f u).2.recent_assignments.length =
      (s.recent_assignments.length + 1) -
        ((s.recent_assignments.length + 1) - s.history_window) ∧
    (s.assign_color_advanced lane f u).2.lane_colors.countP
        (fun o => o.isSome) ≤
      s.lane_colors.countP (fun o => o.isSome) + 1 ∧
    (s.assign_color_advanced lane f u).2.history_window =
      s.history_window := by
  refine ⟨rfl, ?_, ?_, ?_, rfl⟩
  · cases f <;> rfl
  · show ((((s.ensure_capacity lane).recent_assignments ++ _).drop _)).length = _
    rw [List.length_drop, List.length_append]
    rfl
  · calc ((s.ensure_capacity lane).lane_colors.set lane
        (some (s.assign_color_advanced lane f u).1)).countP
          (fun o => o.isSome) ≤
        (s.ensure_capacity lane).lane_colors.countP (fun o => o.isSome) + 1 :=
          countP_set_le _ _ _ _
      _ = s.lane_colors.countP (fun o => o.isSome) + 1 := by
          rw [(ensure_capacity_fields s lane).2.2.2]

lemma finset_sum_map_swap {α} (S : Finset ℕ) (g : ℕ → α → ℚ) :
    ∀ l : List α,
      (Finset.sum S (fun c => (l.map (g c)).sum)) =
        (l.map (fun x => Finset.sum S (fun c => g c x))).sum := by
  intro l
  induction l with
  | nil => simp
  | cons a t ih =>
    simp only [List.map_cons, List.sum_cons]
    rw [Finset.sum_add_distrib, ih]

lemma sum_ite_some_le (S : Finset ℕ) (v : Option ℕ) (w : ℚ) (hw : 0 ≤ w) :
    (Finset.sum S (fun c => if v = some c then w else 0)) ≤
      (if v.isSome then w else 0) := by
  cases v with
  | none => simp
  | some u =>
    have hcong : ∀ c ∈ S, (if some u = some c then w else 0) =
        (if u = c then w else 0) := by
      intro c _
      simp
    rw [Finset.sum_congr rfl hcong, Finset.sum_ite_eq S u (fun _ => w)]
    split
    · simp
    · simp [hw]

lemma sum_ite_nat_le (S : Finset ℕ) (x : ℕ) (w : ℚ) (hw : 0 ≤ w) :
    (Finset.sum S (fun c => if x = c then w else 0)) ≤ w := by
  rw [Finset.sum_ite_eq S x (fun _ => w)]
  split
  · exact le_refl w
  · exact hw

lemma sum_isSome_indicator_le :
    ∀ (l : List (Option ℕ)) (off : ℕ),
      ((List.enumFrom off l).map (fun ol =>
        if ol.2.isSome then (8 : ℚ) else 0)).sum ≤
        8 * (l.countP (fun (o : Option ℕ) => o.isSome) : ℚ) := by
  intro l
  induction l with
  | nil => intro off; simp
  | cons a t ih =>
    intro off
    simp only [List.enumFrom, List.map_cons, List.sum_cons, List.countP_cons]
    have hrest := ih (off + 1)
    by_cases ha : a.isSome
    · rw [if_pos ha]
      have hc : ((t.countP (fun (o : Option ℕ) => o.isSome) +
          if (fun (o : Option ℕ) => o.isSome) a then 1 else 0 : ℕ) : ℚ) =
          (t.countP (fun (o : Option ℕ) => o.isSome) : ℚ) + 1 := by
        rw [if_pos ha]
        push_cast
        ring
      rw [hc]
      linarith
    · rw [if_neg ha]
      have hc : ((t.countP (fun (o : Option ℕ) => o.isSome) +
          if (fun (o : Option ℕ) => o.isSome) a then 1 else 0 : ℕ) : ℚ) =
          (t.countP (fun (o : Option ℕ) => o.isSome) : ℚ) := by
        rw [if_neg ha]
        push_cast
        ring
      rw [hc]
      linarith

/-- Total penalty mass over any set of colors not penalized as fork
siblings: the last-color surcharge hits at most one color, each active lane
contributes its weight to exactly one color, each history entry to exactly
one color, and the usage term is at most 2 per color. -/
lemma sum_penalty_cheap_le (s : ColorAssigner) (lane : ℕ) (S : Finset ℕ)
    (hS : ∀ c ∈ S, c ∉ s.current_fork_colors) :
    (Finset.sum S (fun c => penalty s lane true c)) ≤
      10 + 8 * (s.lane_colors.countP (fun (o : Option ℕ) => o.isSome) : ℚ) +
        8 * (s.recent_assignments.length : ℚ) + 2 * (S.card : ℚ) := by
  unfold penalty
  simp only [Finset.sum_add_distrib]
  have hlast : (Finset.sum S (fun c => penaltyLast s lane c)) ≤ 10 := by
    unfold penaltyLast
    exact sum_ite_nat_le S _ 10 (by norm_num)
  have hactive : (Finset.sum S (fun c => penaltyActive s lane c)) ≤
      8 * (s.lane_colors.countP (fun (o : Option ℕ) => o.isSome) : ℚ) := by
    unfold penaltyActive
    rw [finset_sum_map_swap]
    calc ((s.lane_colors.enum).map (fun ol => Finset.sum S (fun c =>
          if ol.2 = some c then
            (8 : ℚ) / (((((lane : ℤ) - (ol.1 : ℤ)).natAbs : ℕ) : ℚ) + 1)
          else 0))).sum ≤
        ((s.lane_colors.enum).map (fun ol =>
          if ol.2.isSome then (8 : ℚ) else 0)).sum := by
          refine List.sum_le_sum ?_
          intro ol _
          have hw : (0 : ℚ) ≤
              8 / (((((lane : ℤ) - (ol.1 : ℤ)).natAbs : ℕ) : ℚ) + 1) := by
            positivity
          refine le_trans (sum_ite_some_le S ol.2 _ hw) ?_
          have hw8 : (8 : ℚ) /
              (((((lane : ℤ) - (ol.1 : ℤ)).natAbs : ℕ) : ℚ) + 1) ≤ 8 := by
            refine div_le_self (by norm_num) ?_
            have : (0 : ℚ) ≤ ((((lane : ℤ) - (ol.1 : ℤ)).natAbs : ℕ) : ℚ) := by
              positivity
            linarith
          split
          · exact hw8
          · exact le_refl 0
      _ ≤ 8 * (s.lane_colors.countP (fun (o : Option ℕ) => o.isSome) : ℚ) :=
          sum_isSome_indicator_le s.lane_colors 0
  have hhist : (Finset.sum S (fun c => penaltyHist s lane c)) ≤
      8 * (s.recent_assignments.length : ℚ) := by
    unfold penaltyHist
    rw [finset_sum_map_swap]
    refine sum_map_le_length_mul _ 8 _ ?_
    intro e _
    have ht : (0 : ℚ) ≤ (4 / (((s.current_row - e.1 : ℕ) : ℚ) + 1)) *
        (2 / (((((lane : ℤ) - (e.2.1 : ℤ)).natAbs : ℕ) : ℚ) + 1)) := by
      positivity
    refine le_trans (sum_ite_nat_le S _ _ ht) ?_
    have h1 : (4 : ℚ) / (((s.current_row - e.1 : ℕ) : ℚ) + 1) ≤ 4 := by
      refine div_le_self (by norm_num) ?_
      have : (0 : ℚ) ≤ ((s.current_row - e.1 : ℕ) : ℚ) := by positivity
      linarith
    have h2 : (2 : ℚ) /
        (((((lane : ℤ) - (e.2.1 : ℤ)).natAbs : ℕ) : ℚ) + 1) ≤ 2 := by
      refine div_le_self (by norm_num) ?_
      have : (0 : ℚ) ≤ ((((lane : ℤ) - (e.2.1 : ℤ)).natAbs : ℕ) : ℚ) := by
        positivity
      linarith
    have h2n : (0 : ℚ) ≤ 2 /
        (((((lane : ℤ) - (e.2.1 : ℤ)).natAbs : ℕ) : ℚ) + 1) := by
      positivity
    calc _ ≤ (4 : ℚ) * 2 := mul_le_mul h1 h2 h2n (by norm_num)
      _ = 8 := by norm_num
  have hfork0 : (Finset.sum S (fun c => penaltyFork s true c)) = 0 :=
    Finset.sum_eq_zero (fun c hc => penaltyFork_eq_zero s true c (hS c hc))
  have husage : (Finset.sum S (fun c => penaltyUsage s c)) ≤
      2 * (S.card : ℚ) := by
    have := Finset.sum_le_card_nsmul S (fun c => penaltyUsage s c) 2
      (fun c _ => penaltyUsage_le s c)
    rw [nsmul_eq_mul] at this
    linarith
  linarith

/-- C8. Two successive `assign_fork_sibling_color` calls on distinct lanes
within one row (no `advance_row` or `begin_fork` in between, any colors
already claimed by earlier fork siblings of the row allowed) return
different color indices, under the build's state invariants — history window
at most 6 and only the main color reserved — and a lane-mass bound making
the +100 fork penalty dominant: `8·(active colored lanes) +
98·(fork-sibling colors this row) ≤ 815` (for a row's first sibling pair
this allows up to 101 simultaneously active colored lanes). -/
theorem fork_sibling_colors_distinct (s : ColorAssigner) (l1 l2 : ℕ)
    (hl : l1 ≠ l2)
    (hwin : s.history_window ≤ 6)
    (hres : ∀ c ∈ s.reserved_colors, c = MAIN_BRANCH_COLOR)
    (hbound : 8 * s.lane_colors.countP (fun (o : Option ℕ) => o.isSome) +
      98 * s.current_fork_colors.card ≤ 815) :
    ((s.assign_fork_sibling_color l1).2.assign_fork_sibling_color l2).1 ≠
      (s.assign_fork_sibling_color l1).1 := by
  unfold ColorAssigner.assign_fork_sibling_color
  intro heq
  obtain ⟨hres1, hfork1, hlen1, hcount1, hwin1⟩ :=
    assign_advanced_state s l1 true false
  rw [if_pos rfl] at hfork1
  have hsel : ((s.assign_color_advanced l1 true false).2.assign_color_advanced
      l2 true false).1 =
      selectColor
        (penalty (((s.assign_color_advanced l1 true
          false).2).ensure_capacity l2) l2 true)
        ((((s.assign_color_advanced l1 true
          false).2).ensure_capacity l2)).next_color_index
        ((((s.assign_color_advanced l1 true
          false).2).ensure_capacity l2)).reserved_colors false := rfl
  obtain ⟨hres2, hfork2, hrecent2, hcount2⟩ :=
    ensure_capacity_fields ((s.assign_color_advanced l1 true false).2) l2
  have hlen2 :
      ((((s.assign_color_advanced l1 true
        false).2).ensure_capacity l2)).recent_assignments.length ≤ 6 := by
    rw [hrecent2, hlen1]
    omega
  have hcount3 :
      ((((s.assign_color_advanced l1 true
        false).2).ensure_capacity l2)).lane_colors.countP
        (fun (o : Option ℕ) => o.isSome) ≤
      s.lane_colors.countP (fun (o : Option ℕ) => o.isSome) + 1 := by
    rw [hcount2]
    exact hcount1
  have hc1mem : (s.assign_color_advanced l1 true false).1 ∈
      ((((s.assign_color_advanced l1 true
        false).2).ensure_capacity l2)).current_fork_colors := by
    rw [hfork2, hfork1]
    exact Finset.mem_insert_self _ _
  have hge := penalty_ge_fork
    ((((s.assign_color_advanced l1 true false).2).ensure_capacity l2)) l2
    (s.assign_color_advanced l1 true false).1 hc1mem
  -- the non-fork, non-reserved colors of the palette
  have hforkcard :
      ((((s.assign_color_advanced l1 true
        false).2).ensure_capacity l2)).current_fork_colors.card ≤
      s.current_fork_colors.card + 1 := by
    rw [hfork2, hfork1]
    exact Finset.card_insert_le _ _
  have hrescard :
      ((((s.assign_color_advanced l1 true
        false).2).ensure_capacity l2)).reserved_colors.card ≤ 1 := by
    rw [hres2, hres1]
    have hsub : s.reserved_colors ⊆ {MAIN_BRANCH_COLOR} := by
      intro c hc
      rw [Finset.mem_singleton]
      exact hres c hc
    calc s.reserved_colors.card ≤ ({MAIN_BRANCH_COLOR} : Finset ℕ).card :=
        Finset.card_le_card hsub
      _ = 1 := Finset.card_singleton _
  have hbadcard :
      (((((s.assign_color_advanced l1 true
        false).2).ensure_capacity l2)).current_fork_colors ∪
        ((((s.assign_color_advanced l1 true
          false).2).ensure_capacity l2)).reserved_colors).card ≤
      s.current_fork_colors.card + 2 := by
    calc _ ≤ ((((s.assign_color_advanced l1 true
          false).2).ensure_capacity l2)).current_fork_colors.card +
        ((((s.assign_color_advanced l1 true
          false).2).ensure_capacity l2)).reserved_colors.card :=
        Finset.card_union_le _ _
      _ ≤ s.current_fork_colors.card + 2 := by omega
  have hcheapcard : 11 -
      (((((s.assign_color_advanced l1 true
        false).2).ensure_capacity l2)).current_fork_colors ∪
        ((((s.assign_color_advanced l1 true
          false).2).ensure_capacity l2)).reserved_colors).card ≤
      (Finset.range 11 \
        (((((s.assign_color_advanced l1 true
          false).2).ensure_capacity l2)).current_fork_colors ∪
          ((((s.assign_color_advanced l1 true
            false).2).ensure_capacity l2)).reserved_colors)).card := by
    have := Finset.le_card_sdiff
      ((((((s.assign_color_advanced l1 true
        false).2).ensure_capacity l2)).current_fork_colors ∪
        ((((s.assign_color_advanced l1 true
          false).2).ensure_capacity l2)).reserved_colors))
      (Finset.range 11)
    rwa [Finset.card_range] at this
  -- some cheap color has penalty below the fork surcharge
  by_cases hcheap : ∃ c ∈ (Finset.range 11 \
        (((((s.assign_color_advanced l1 true
        false).2).ensure_capacity l2)).current_fork_colors ∪
        ((((s.assign_color_advanced l1 true
          false).2).ensure_capacity l2)).reserved_colors)),
      penalty ((((s.assign_color_advanced l1 true
        false).2).ensure_capacity l2)) l2 true c < 100
  · obtain ⟨c, hcmem, hclt⟩ := hcheap
    obtain ⟨hcrange, hcbad⟩ := Finset.mem_sdiff.mp hcmem
    have hc11 : c < 11 := Finset.mem_range.mp hcrange
    have hcres : c ∉ ((((s.assign_color_advanced l1 true
        false).2).ensure_capacity l2)).reserved_colors :=
      fun hmem => hcbad (Finset.mem_union_right _ hmem)
    have hspec := selectColor_spec
      (penalty ((((s.assign_color_advanced l1 true
        false).2).ensure_capacity l2)) l2 true)
      ((((s.assign_color_advanced l1 true
        false).2).ensure_capacity l2)).next_color_index
      ((((s.assign_color_advanced l1 true
        false).2).ensure_capacity l2)).reserved_colors
      ⟨c, hc11, hcres⟩
    have hmin := hspec.2 c hc11 hcres
    rw [← hsel, heq] at hmin
    linarith
  · exfalso
    push_neg at hcheap
    have h100 : ∀ c ∈ (Finset.range 11 \
        (((((s.assign_color_advanced l1 true
          false).2).ensure_capacity l2)).current_fork_colors ∪
          ((((s.assign_color_advanced l1 true
            false).2).ensure_capacity l2)).reserved_colors)),
        (100 : ℚ) ≤ penalty ((((s.assign_color_advanced l1 true
          false).2).ensure_capacity l2)) l2 true c :=
      fun c hc => hcheap c hc
    have hlow := Finset.card_nsmul_le_sum _ _ (100 : ℚ) h100
    rw [nsmul_eq_mul] at hlow
    have hup := sum_penalty_cheap_le
      ((((s.assign_color_advanced l1 true false).2).ensure_capacity l2)) l2
      (Finset.range 11 \
        (((((s.assign_color_advanced l1 true
          false).2).ensure_capacity l2)).current_fork_colors ∪
          ((((s.assign_color_advanced l1 true
            false).2).ensure_capacity l2)).reserved_colors))
      (fun c hc =>
        fun hmem => (Finset.mem_sdiff.mp hc).2 (Finset.mem_union_left _ hmem))
    -- cast the counting facts to ℚ and derive the contradiction
    have hmcf : 9 ≤ (Finset.range 11 \
        (((((s.assign_color_advanced l1 true
          false).2).ensure_capacity l2)).current_fork_colors ∪
          ((((s.assign_color_advanced l1 true
            false).2).ensure_capacity l2)).reserved_colors)).card +
        s.current_fork_colors.card := by
      omega
    have hmq : (9 : ℚ) ≤ ((Finset.range 11 \
        (((((s.assign_color_advanced l1 true
          false).2).ensure_capacity l2)).current_fork_colors ∪
          ((((s.assign_color_advanced l1 true
            false).2).ensure_capacity l2)).reserved_colors)).card : ℚ) +
        (s.current_fork_colors.card : ℚ) := by
      exact_mod_cast hmcf
    have hcq : (((((s.assign_color_advanced l1 true
        false).2).ensure_capacity l2)).lane_colors.countP
        (fun (o : Option ℕ) => o.isSome) : ℚ) ≤
        (s.lane_colors.countP (fun (o : Option ℕ) => o.isSome) : ℚ) + 1 := by
      exact_mod_cast hcount3
    have hlq : ((((((s.assign_color_advanced l1 true
        false).2).ensure_capacity l2))).recent_assignments.length : ℚ) ≤ 6 := by
      exact_mod_cast hlen2
    have hbq : 8 * (s.lane_colors.countP
        (fun (o : Option ℕ) => o.isSome) : ℚ) +
        98 * (s.current_fork_colors.card : ℚ) ≤ 815 := by
      exact_mod_cast hbound
    linarith

/-- A mid-row assigner state: four active colored lanes, two colors already
claimed by earlier fork siblings of the row, the main color reserved. -/
def demoAssigner : ColorAssigner :=
  { lane_colors := [some 2, some 4, some 6, some 8, none]
    lane_last_color := [2, 4, 6, 8, 0]
    next_color_index := 5
    reserved_colors := {9}
    recent_assignments := [(0, 0, 2), (0, 1, 4), (1, 2, 6), (1, 3, 8)]
    history_window := 6
    current_row := 1
    current_fork_colors := {6, 8}
    color_usage_count := [0, 0, 1, 0, 1, 0, 1, 0, 1, 0, 0]
    main_lane := none }

theorem fork_sibling_colors_distinct_witness :
    ((demoAssigner.assign_fork_sibling_color 5).2.assign_fork_sibling_color
      6).1 ≠ (demoAssigner.assign_fork_sibling_color 5).1 :=
  fork_sibling_colors_distinct demoAssigner 5 6 (by decide) (by decide)
    (by decide) (by decide)

end Keifu
